import Mathlib

/-!
Shallow embedding of the shared/weak smart-pointer subsystem
(src/shared-ptr/shared.h and the WeakPtr header) and proofs of the
specification claims about it.

Modelling conventions:
* Raw object pointers are `RawPtr` values: either a separately
  heap-allocated object (`RawPtr.obj`) or the in-place storage embedded in
  control block `b` (`RawPtr.storage b`).  A C++ `T*` that may be null is
  `Option RawPtr`.
* The free store is an explicit `Heap`: a map from block ids to control
  blocks, a fresh-id counter, and an event trace recording every
  object/block destruction (`Event`).  `new` draws the next id; `delete`
  removes the entry and records an event.
* Each C++ member function becomes a Lean function threading the `Heap`.
  Reading through a dangling block pointer is undefined behaviour in the
  source; the embedding makes those lookups total by leaving the heap
  unchanged there (such states are unreachable in the verified sequences).
* C++ `int` counters are modelled as `Int` (overflow is UB in the source
  and never reached by the finite sequences considered here).
-/

/-- A raw object pointer: a separately allocated object, or the storage
embedded inside control block `b` (as handed out by `ControlBlockHolder::Get`). -/
inductive RawPtr where
  | obj (id : Nat)
  | storage (b : Nat)
deriving DecidableEq

/-- Instrumentation events recording allocations and destructions. -/
inductive Event where
  | allocBlock (b : Nat)
  | deleteBlock (b : Nat)
  | ifNoShared (b : Nat)
  | deleteObject (p : RawPtr)
  | destructObject (b : Nat)
deriving DecidableEq

/-- Which concrete control-block class block `b` is:
`ControlBlockPtr` (owning raw pointer `ptr_`, nulled by `IfNoShared`) or
`ControlBlockHolder` (in-place storage; `objAlive` tracks whether the
in-place object has been destructed yet). -/
inductive ControlBlockVariant where
  | ptrBlock (ptr_ : Option RawPtr)
  | holderBlock (objAlive : Bool)
deriving DecidableEq

/-- `struct ControlBlockBase { int shared_refs = 0, weak_refs = 0; ... }`
together with the state of the concrete derived class. -/
structure ControlBlockBase where
  shared_refs : Int
  weak_refs : Int
  variant : ControlBlockVariant
deriving DecidableEq

/-- Virtual `IfNoShared()` dispatched on block `b` (the id is only used to
tag the trace events).  `ControlBlockPtr::IfNoShared` does
`delete ptr_; ptr_ = nullptr;` (deleting a null pointer is a no-op);
`ControlBlockHolder::IfNoShared` runs the managed object destructor in
place. Counters are untouched. -/
def ControlBlockBase.IfNoShared (b : Nat) (cb : ControlBlockBase) :
    ControlBlockBase × List Event :=
  match cb.variant with
  | ControlBlockVariant.ptrBlock p =>
      ({ cb with variant := ControlBlockVariant.ptrBlock none },
       Event.ifNoShared b ::
         (match p with
          | some a => [Event.deleteObject a]
          | none => []))
  | ControlBlockVariant.holderBlock _ =>
      ({ cb with variant := ControlBlockVariant.holderBlock false },
       [Event.ifNoShared b, Event.destructObject b])

/-- The free store: allocated control blocks, a fresh-id counter and the
chronological event trace. -/
structure Heap where
  blocks : Nat → Option ControlBlockBase
  next : Nat
  events : List Event

/-- The empty free store. -/
def Heap.empty : Heap := ⟨fun _ => none, 0, []⟩

/-- Point update of the block map. -/
def updateFn (f : Nat → Option ControlBlockBase) (b : Nat)
    (v : Option ControlBlockBase) : Nat → Option ControlBlockBase :=
  fun x => if x = b then v else f x

/-- `++(block_->shared_refs)` guarded by `if (block_)`.  A non-null block
pointer always refers to a live block in reachable states; a dangling
pointer would be UB in the source and is modelled as no state change. -/
def Heap.incShared (h : Heap) (b? : Option Nat) : Heap :=
  match b? with
  | none => h
  | some b =>
      match h.blocks b with
      | none => h
      | some cb =>
          { h with blocks := (updateFn h.blocks b
              (some { cb with shared_refs := cb.shared_refs + 1 })) }

/-- `++(block_->weak_refs)` guarded by `if (block_)`, as in `incShared`. -/
def Heap.incWeak (h : Heap) (b? : Option Nat) : Heap :=
  match b? with
  | none => h
  | some b =>
      match h.blocks b with
      | none => h
      | some cb =>
          { h with blocks := (updateFn h.blocks b
              (some { cb with weak_refs := cb.weak_refs + 1 })) }

/-- `class SharedPtr { T* ptr_; ControlBlockBase* block_; }` -/
structure SharedPtr where
  ptr_ : Option RawPtr
  block_ : Option Nat
deriving DecidableEq

/-- `class WeakPtr { T* ptr_; ControlBlockBase* block_; }` -/
structure WeakPtr where
  ptr_ : Option RawPtr
  block_ : Option Nat
deriving DecidableEq

/-- `BadWeakPtr` (declared in sw_fwd.h, thrown by the promoting constructor). -/
inductive BadWeakPtr where
  | mk
deriving DecidableEq

/-- `SharedPtr()` / `SharedPtr(nullptr)`. -/
def SharedPtr.null : SharedPtr := ⟨none, none⟩

/-- `explicit SharedPtr(Y* ptr) : ptr_(ptr), block_(new ControlBlockPtr<Y>(ptr))
{ block_->shared_refs = 1; }` — allocates a fresh pointer-owning control
block (counters default to 0, then the strong count is set to 1). -/
def SharedPtr.fromRaw (h : Heap) (p : Option RawPtr) : SharedPtr × Heap :=
  let b := h.next
  (⟨p, some b⟩,
   { blocks := (updateFn h.blocks b
       (some ⟨1, 0, ControlBlockVariant.ptrBlock p⟩)),
     next := b + 1,
     events := h.events ++ [Event.allocBlock b] })

/-- `explicit SharedPtr(Y* ptr, ControlBlockBase* block)` — the private
constructor used by `MakeShared`: adopts the given block and increments its
strong count if non-null. -/
def SharedPtr.fromPtrAndBlock (h : Heap) (p : Option RawPtr) (b? : Option Nat) :
    SharedPtr × Heap :=
  (⟨p, b?⟩, h.incShared b?)

/-- `SharedPtr(const SharedPtr& other)` — copies both fields and increments
the strong count if the block is non-null. -/
def SharedPtr.copy (h : Heap) (o : SharedPtr) : SharedPtr × Heap :=
  (⟨o.ptr_, o.block_⟩, h.incShared o.block_)

/-- `SharedPtr(SharedPtr&& other)` — takes both fields and nulls the source;
no counter change.  Returns (constructed handle, source after move). -/
def SharedPtr.moveCtor (o : SharedPtr) : SharedPtr × SharedPtr :=
  (⟨o.ptr_, o.block_⟩, SharedPtr.null)

/-- Aliasing constructor `SharedPtr(const SharedPtr<Y>& other, T* ptr)` —
shares the block of `other` (incrementing the strong count if non-null) but
stores `ptr` as the observed pointer. -/
def SharedPtr.aliasCtor (h : Heap) (o : SharedPtr) (p : Option RawPtr) :
    SharedPtr × Heap :=
  (⟨p, o.block_⟩, h.incShared o.block_)

/-- `void Swap(SharedPtr& other)` — exchanges both fields.
Returns (this after, other after). -/
def SharedPtr.Swap (a b : SharedPtr) : SharedPtr × SharedPtr := (b, a)

/-- `size_t UseCount() const` — the strong count of the block, or 0 for an
empty handle. -/
def SharedPtr.UseCount (h : Heap) (s : SharedPtr) : Int :=
  match s.block_ with
  | none => 0
  | some b =>
      match h.blocks b with
      | none => 0
      | some cb => cb.shared_refs

/-- `T* Get() const`. -/
def SharedPtr.Get (s : SharedPtr) : Option RawPtr := s.ptr_

/-- `explicit operator bool() const` — `ptr_ != nullptr`. -/
def SharedPtr.toBool (s : SharedPtr) : Bool := s.ptr_.isSome

/-- `~SharedPtr()`: if the block is non-null, decrement `shared_refs`; when
it reaches 0 call the virtual `IfNoShared()`; then, if
`shared_refs + weak_refs == 0`, `delete block_`. -/
def SharedPtr.dtor (h : Heap) (s : SharedPtr) : Heap :=
  match s.block_ with
  | none => h
  | some b =>
      match h.blocks b with
      | none => h
      | some cb0 =>
          let cb1 := { cb0 with shared_refs := cb0.shared_refs - 1 }
          let r := if cb1.shared_refs == 0 then cb1.IfNoShared b else (cb1, [])
          let h1 : Heap := { h with blocks := updateFn h.blocks b (some r.1), events := h.events ++ r.2 }
          if r.1.shared_refs + r.1.weak_refs == 0 then
            { h1 with blocks := updateFn h1.blocks b none, events := h1.events ++ [Event.deleteBlock b] }
          else h1

/-- `WeakPtr()`. -/
def WeakPtr.null : WeakPtr := ⟨none, none⟩

/-- `WeakPtr(const WeakPtr& other)` — copies both fields and increments the
weak count if the block is non-null. -/
def WeakPtr.copy (h : Heap) (o : WeakPtr) : WeakPtr × Heap :=
  (⟨o.ptr_, o.block_⟩, h.incWeak o.block_)

/-- `WeakPtr(WeakPtr&& other)` — takes both fields and nulls the source. -/
def WeakPtr.moveCtor (o : WeakPtr) : WeakPtr × WeakPtr :=
  (⟨o.ptr_, o.block_⟩, WeakPtr.null)

/-- `WeakPtr(const SharedPtr<Y>& other)` — captures the block of a
SharedPtr and increments the weak count if non-null. -/
def WeakPtr.fromShared (h : Heap) (o : SharedPtr) : WeakPtr × Heap :=
  (⟨o.ptr_, o.block_⟩, h.incWeak o.block_)

/-- `void Swap(WeakPtr& other)`.  Returns (this after, other after). -/
def WeakPtr.Swap (a b : WeakPtr) : WeakPtr × WeakPtr := (b, a)

/-- `size_t UseCount() const` — the strong count of the block, or 0. -/
def WeakPtr.UseCount (h : Heap) (w : WeakPtr) : Int :=
  match w.block_ with
  | none => 0
  | some b =>
      match h.blocks b with
      | none => 0
      | some cb => cb.shared_refs

/-- `bool Expired() const` — `UseCount() == 0`. -/
def WeakPtr.Expired (h : Heap) (w : WeakPtr) : Bool :=
  WeakPtr.UseCount h w == 0

/-- `~WeakPtr()`: if the block is non-null, decrement `weak_refs`; then, if
`shared_refs + weak_refs == 0`, `delete block_`.  Never calls `IfNoShared`. -/
def WeakPtr.dtor (h : Heap) (w : WeakPtr) : Heap :=
  match w.block_ with
  | none => h
  | some b =>
      match h.blocks b with
      | none => h
      | some cb0 =>
          let cb1 := { cb0 with weak_refs := cb0.weak_refs - 1 }
          let h1 : Heap := { h with blocks := updateFn h.blocks b (some cb1) }
          if cb1.shared_refs + cb1.weak_refs == 0 then
            { h1 with blocks := updateFn h1.blocks b none, events := h1.events ++ [Event.deleteBlock b] }
          else h1

/-- `explicit SharedPtr(const WeakPtr<T>& other)` — the promoting
constructor: `if (other.Expired()) throw BadWeakPtr{};` then copies both
fields and increments the strong count if the block is non-null.  The
thrown exception is modelled as `Except.error`; the heap is returned in
both cases (a throw mutates nothing). -/
def SharedPtr.fromWeak (h : Heap) (w : WeakPtr) :
    Except BadWeakPtr SharedPtr × Heap :=
  if WeakPtr.Expired h w then (Except.error BadWeakPtr.mk, h)
  else (Except.ok ⟨w.ptr_, w.block_⟩, h.incShared w.block_)

/-- `SharedPtr<T> Lock() const noexcept` — returns an empty SharedPtr if
expired, otherwise promotes via the converting constructor (which cannot
throw here because expiry was just checked; the fall-back arm is dead code
mirroring the `noexcept` contract). -/
def WeakPtr.Lock (h : Heap) (w : WeakPtr) : SharedPtr × Heap :=
  if WeakPtr.Expired h w then (SharedPtr.null, h)
  else
    match SharedPtr.fromWeak h w with
    | (Except.ok s, h1) => (s, h1)
    | (Except.error _, h1) => (SharedPtr.null, h1)

/-- `MakeShared<T>(args...)`:
`auto holder_block = new ControlBlockHolder<T>(args...);` (which constructs
the object in the inline storage; counters default to 0) followed by
`SharedPtr<T>(holder_block->Get(), holder_block)` (which increments the
strong count to 1). -/
def MakeShared (h : Heap) : SharedPtr × Heap :=
  let b := h.next
  let h1 : Heap :=
    { blocks := (updateFn h.blocks b
        (some ⟨0, 0, ControlBlockVariant.holderBlock true⟩)),
      next := b + 1,
      events := h.events ++ [Event.allocBlock b] }
  SharedPtr.fromPtrAndBlock h1 (some (RawPtr.storage b)) (some b)

/-- Allocation-failure outcome of a constructor whose `new` expression may
throw `std::bad_alloc`. -/
inductive AllocError where
  | badAlloc
deriving DecidableEq

/-- The raw-pointer constructor with the possibly-failing control-block
allocation made explicit: `block_(new ControlBlockPtr<Y>(ptr))` throws when
the allocator fails (`allocOk = false`).  The C++ constructor performs no
cleanup on that path: the propagated exception leaves the heap untouched
and in particular the pointer `p` handed to the constructor is not freed. -/
def SharedPtr.fromRawAlloc (allocOk : Bool) (h : Heap) (p : Option RawPtr) :
    Except AllocError SharedPtr × Heap :=
  if allocOk then
    let r := SharedPtr.fromRaw h p
    (Except.ok r.1, r.2)
  else (Except.error AllocError.badAlloc, h)

/-- `MakeShared` with the possibly-failing holder-block allocation made
explicit: when the single allocation fails, nothing was constructed and the
heap is untouched. -/
def MakeSharedAlloc (allocOk : Bool) (h : Heap) :
    Except AllocError SharedPtr × Heap :=
  if allocOk then
    let r := MakeShared h
    (Except.ok r.1, r.2)
  else (Except.error AllocError.badAlloc, h)

/-- Copy assignment `operator=(const SharedPtr& other)`:
`SharedPtr<T>(other).Swap(*this);` — construct a temporary copy, swap it
with `*this`, and destroy the temporary (which now holds the old value of
`*this`).  Self-assignment (`other` aliasing `*this`) is covered: the copy
reads the fields before anything is overwritten. -/
def SharedPtr.assignCopy (h : Heap) (this other : SharedPtr) :
    SharedPtr × Heap :=
  let c := SharedPtr.copy h other
  let s := SharedPtr.Swap c.1 this
  (s.2, SharedPtr.dtor c.2 s.1)

/-- Move assignment `operator=(SharedPtr&& other)` for `other` a different
object than `*this`: `SharedPtr<T>(std::move(other)).Swap(*this);`.
Returns (this after, other after, heap after). -/
def SharedPtr.assignMove (h : Heap) (this other : SharedPtr) :
    SharedPtr × SharedPtr × Heap :=
  let m := SharedPtr.moveCtor other
  let s := SharedPtr.Swap m.1 this
  (s.2, m.2, SharedPtr.dtor h s.1)

/-- Move self-assignment `p = std::move(p)`: the moved-from source aliases
`*this`, so after the temporary is move-constructed `*this` is the nulled
source, the swap hands the old value back to `*this`, and the destroyed
temporary is empty. -/
def SharedPtr.selfAssignMove (h : Heap) (this : SharedPtr) :
    SharedPtr × Heap :=
  let m := SharedPtr.moveCtor this
  let s := SharedPtr.Swap m.1 m.2
  (s.2, SharedPtr.dtor h s.1)

/-- Copy assignment `operator=(const WeakPtr& other)` via
construct-temporary-then-swap, as for `SharedPtr`. -/
def WeakPtr.assignCopy (h : Heap) (this other : WeakPtr) : WeakPtr × Heap :=
  let c := WeakPtr.copy h other
  let s := WeakPtr.Swap c.1 this
  (s.2, WeakPtr.dtor c.2 s.1)

/-- Move assignment `operator=(WeakPtr&& other)` for distinct objects. -/
def WeakPtr.assignMove (h : Heap) (this other : WeakPtr) :
    WeakPtr × WeakPtr × Heap :=
  let m := WeakPtr.moveCtor other
  let s := WeakPtr.Swap m.1 this
  (s.2, m.2, WeakPtr.dtor h s.1)

/-- Move self-assignment `w = std::move(w)` (source aliases `*this`). -/
def WeakPtr.selfAssignMove (h : Heap) (this : WeakPtr) : WeakPtr × Heap :=
  let m := WeakPtr.moveCtor this
  let s := WeakPtr.Swap m.1 m.2
  (s.2, WeakPtr.dtor h s.1)

/-- `operator=(const SharedPtr<Y>& sptr)` on WeakPtr:
`WeakPtr<T>(sptr).Swap(*this);` with the temporary destroyed. -/
def WeakPtr.assignFromShared (h : Heap) (this : WeakPtr) (o : SharedPtr) :
    WeakPtr × Heap :=
  let c := WeakPtr.fromShared h o
  let s := WeakPtr.Swap c.1 this
  (s.2, WeakPtr.dtor c.2 s.1)

/-!
## Sequence machine

A whole-program model for the lifetime claims: a list of handle slots
(each a live `SharedPtr` or `WeakPtr` object, or `none` once destroyed)
together with the heap.  Each `Op` is one C++ statement on the slots;
ill-typed operations (index out of range, destroyed slot, wrong handle
kind) correspond to no C++ program and leave the state unchanged.
-/

/-- A live handle object: a `SharedPtr` or a `WeakPtr`. -/
inductive Handle where
  | strong (s : SharedPtr)
  | weak (w : WeakPtr)
deriving DecidableEq

/-- Machine state: the heap plus the handle slots (`none` = destroyed). -/
structure MState where
  heap : Heap
  slots : List (Option Handle)

/-- One C++ statement on the slots.  Two-index operations with `i = j`
denote the self-assignment statements (both sides alias one object). -/
inductive Op where
  | copyStrong (i : Nat)
  | moveStrong (i : Nat)
  | destroySlot (i : Nat)
  | assignCopyStrong (i j : Nat)
  | assignMoveStrong (i j : Nat)
  | copyWeak (i : Nat)
  | moveWeak (i : Nat)
  | weakFromStrong (i : Nat)
  | assignCopyWeak (i j : Nat)
  | assignMoveWeak (i j : Nat)
  | assignWeakFromStrong (i j : Nat)
  | lockWeak (i : Nat)
deriving DecidableEq

/-- The `SharedPtr` in slot `i`, if slot `i` is a live strong handle. -/
def getStrong (st : MState) (i : Nat) : Option SharedPtr :=
  match st.slots[i]? with
  | some (some (Handle.strong s)) => some s
  | _ => none

/-- The `WeakPtr` in slot `i`, if slot `i` is a live weak handle. -/
def getWeak (st : MState) (i : Nat) : Option WeakPtr :=
  match st.slots[i]? with
  | some (some (Handle.weak w)) => some w
  | _ => none

/-- Execute one operation. -/
def step (st : MState) : Op → MState
  | Op.copyStrong i =>
      match getStrong st i with
      | some s =>
          let r := SharedPtr.copy st.heap s
          ⟨r.2, st.slots ++ [some (Handle.strong r.1)]⟩
      | none => st
  | Op.moveStrong i =>
      match getStrong st i with
      | some s =>
          let m := SharedPtr.moveCtor s
          ⟨st.heap, (st.slots.set i (some (Handle.strong m.2))) ++ [some (Handle.strong m.1)]⟩
      | none => st
  | Op.destroySlot i =>
      match st.slots[i]? with
      | some (some (Handle.strong s)) => ⟨SharedPtr.dtor st.heap s, st.slots.set i none⟩
      | some (some (Handle.weak w)) => ⟨WeakPtr.dtor st.heap w, st.slots.set i none⟩
      | _ => st
  | Op.assignCopyStrong i j =>
      match getStrong st i, getStrong st j with
      | some si, some sj =>
          let r := SharedPtr.assignCopy st.heap si sj
          ⟨r.2, st.slots.set i (some (Handle.strong r.1))⟩
      | _, _ => st
  | Op.assignMoveStrong i j =>
      if i = j then
        match getStrong st i with
        | some s =>
            let r := SharedPtr.selfAssignMove st.heap s
            ⟨r.2, st.slots.set i (some (Handle.strong r.1))⟩
        | none => st
      else
        match getStrong st i, getStrong st j with
        | some si, some sj =>
            let r := SharedPtr.assignMove st.heap si sj
            ⟨r.2.2, (st.slots.set j (some (Handle.strong r.2.1))).set i (some (Handle.strong r.1))⟩
        | _, _ => st
  | Op.copyWeak i =>
      match getWeak st i with
      | some w =>
          let r := WeakPtr.copy st.heap w
          ⟨r.2, st.slots ++ [some (Handle.weak r.1)]⟩
      | none => st
  | Op.moveWeak i =>
      match getWeak st i with
      | some w =>
          let m := WeakPtr.moveCtor w
          ⟨st.heap, (st.slots.set i (some (Handle.weak m.2))) ++ [some (Handle.weak m.1)]⟩
      | none => st
  | Op.weakFromStrong i =>
      match getStrong st i with
      | some s =>
          let r := WeakPtr.fromShared st.heap s
          ⟨r.2, st.slots ++ [some (Handle.weak r.1)]⟩
      | none => st
  | Op.assignCopyWeak i j =>
      match getWeak st i, getWeak st j with
      | some wi, some wj =>
          let r := WeakPtr.assignCopy st.heap wi wj
          ⟨r.2, st.slots.set i (some (Handle.weak r.1))⟩
      | _, _ => st
  | Op.assignMoveWeak i j =>
      if i = j then
        match getWeak st i with
        | some w =>
            let r := WeakPtr.selfAssignMove st.heap w
            ⟨r.2, st.slots.set i (some (Handle.weak r.1))⟩
        | none => st
      else
        match getWeak st i, getWeak st j with
        | some wi, some wj =>
            let r := WeakPtr.assignMove st.heap wi wj
            ⟨r.2.2, (st.slots.set j (some (Handle.weak r.2.1))).set i (some (Handle.weak r.1))⟩
        | _, _ => st
  | Op.assignWeakFromStrong i j =>
      match getWeak st i, getStrong st j with
      | some wi, some sj =>
          let r := WeakPtr.assignFromShared st.heap wi sj
          ⟨r.2, st.slots.set i (some (Handle.weak r.1))⟩
      | _, _ => st
  | Op.lockWeak i =>
      match getWeak st i with
      | some w =>
          let r := WeakPtr.Lock st.heap w
          ⟨r.2, st.slots ++ [some (Handle.strong r.1)]⟩
      | none => st

/-- Execute a sequence of operations. -/
def run (st : MState) (ops : List Op) : MState := ops.foldl step st

/-- Initial state: one `SharedPtr` built from a raw pointer on the empty
heap (`auto p = SharedPtr<T>(rawPtr);`); its control block has id 0. -/
def initState (p : Option RawPtr) : MState :=
  let r := SharedPtr.fromRaw Heap.empty p
  ⟨r.2, [some (Handle.strong r.1)]⟩

/-- Does this slot hold a live `SharedPtr` whose block pointer is block `b`? -/
def refsStrong (b : Nat) (o : Option Handle) : Bool :=
  match o with
  | some (Handle.strong s) => s.block_ == some b
  | _ => false

/-- Does this slot hold a live `WeakPtr` whose block pointer is block `b`? -/
def refsWeak (b : Nat) (o : Option Handle) : Bool :=
  match o with
  | some (Handle.weak w) => w.block_ == some b
  | _ => false

/-- Number of live `SharedPtr` handles referencing block `b`. -/
def sCount (b : Nat) (l : List (Option Handle)) : Nat := l.countP (refsStrong b)

/-- Number of live `WeakPtr` handles referencing block `b`. -/
def wCount (b : Nat) (l : List (Option Handle)) : Nat := l.countP (refsWeak b)

/-- How many times `IfNoShared` has been invoked on block `b`. -/
def insCount (b : Nat) (h : Heap) : Nat := h.events.count (Event.ifNoShared b)

/-- How many times block `b` has been deallocated (`delete block_`). -/
def delCount (b : Nat) (h : Heap) : Nat := h.events.count (Event.deleteBlock b)

/-- Every live handle in the slots is empty or references block `b`. -/
def onlyB (b : Nat) (l : List (Option Handle)) : Prop :=
  ∀ o ∈ l, ∀ s, o = some (Handle.strong s) → s.block_ = none ∨ s.block_ = some b

/-- Every live weak handle in the slots is empty or references block `b`. -/
def onlyBW (b : Nat) (l : List (Option Handle)) : Prop :=
  ∀ o ∈ l, ∀ w, o = some (Handle.weak w) → w.block_ = none ∨ w.block_ = some b

/-- Heap-level invariant for block `b`, relative to the numbers `S` of live
strong and `W` of live weak handles referencing `b`:
while any handle is live the block is allocated and its counters equal the
handle counts, `IfNoShared` has run exactly once as soon as (and only when)
the strong count reached zero, and the block has been deallocated exactly
once as soon as (and only when) both counts reached zero. -/
def InvH (b : Nat) (h : Heap) (S W : Nat) : Prop :=
  (∀ cb, h.blocks b = some cb →
      cb.shared_refs = (S : Int) ∧ cb.weak_refs = (W : Int) ∧ 0 < S + W ∧
      insCount b h = (if S = 0 then 1 else 0) ∧ delCount b h = 0) ∧
  (h.blocks b = none →
      S = 0 ∧ W = 0 ∧ insCount b h = 1 ∧ delCount b h = 1)

/-- Full machine invariant for block `b`. -/
def MInv (b : Nat) (st : MState) : Prop :=
  onlyB b st.slots ∧ onlyBW b st.slots ∧
  InvH b st.heap (sCount b st.slots) (wCount b st.slots)

/-!
## Bookkeeping lemmas
-/

theorem countP_set_eq {α : Type} (p : α → Bool) (v x : α) :
    ∀ (l : List α) (i : Nat), l[i]? = some x →
      (l.set i v).countP p + (if p x then 1 else 0) =
        l.countP p + (if p v then 1 else 0) := by
  intro l
  induction l with
  | nil => intro i hi; simp at hi
  | cons a t ih =>
    intro i hi
    cases i with
    | zero =>
        simp only [List.getElem?_cons_zero, Option.some.injEq] at hi
        subst hi
        simp [List.countP_cons]
        omega
    | succ n =>
        simp only [List.getElem?_cons_succ] at hi
        have := ih n hi
        simp only [List.set_cons_succ, List.countP_cons]
        omega

theorem mem_of_getElem?_eq {α : Type} {l : List α} {i : Nat} {x : α}
    (h : l[i]? = some x) : x ∈ l := by
  induction l generalizing i with
  | nil => simp at h
  | cons a t ih =>
    cases i with
    | zero =>
        simp only [List.getElem?_cons_zero, Option.some.injEq] at h
        simp [h]
    | succ n =>
        simp only [List.getElem?_cons_succ] at h
        exact List.mem_cons_of_mem _ (ih h)

theorem updateFn_self (f : Nat → Option ControlBlockBase) (b : Nat)
    (v : Option ControlBlockBase) : updateFn f b v b = v := by
  simp [updateFn]

theorem updateFn_ne (f : Nat → Option ControlBlockBase) (b : Nat)
    (v : Option ControlBlockBase) (x : Nat) (hx : x ≠ b) :
    updateFn f b v x = f x := by
  simp [updateFn, hx]

theorem IfNoShared_shared_refs (b : Nat) (cb : ControlBlockBase) :
    (cb.IfNoShared b).1.shared_refs = cb.shared_refs := by
  unfold ControlBlockBase.IfNoShared
  cases cb.variant <;> rfl

theorem IfNoShared_weak_refs (b : Nat) (cb : ControlBlockBase) :
    (cb.IfNoShared b).1.weak_refs = cb.weak_refs := by
  unfold ControlBlockBase.IfNoShared
  cases cb.variant <;> rfl

theorem IfNoShared_count_ins (b : Nat) (cb : ControlBlockBase) :
    (cb.IfNoShared b).2.count (Event.ifNoShared b) = 1 := by
  unfold ControlBlockBase.IfNoShared
  cases cb.variant with
  | ptrBlock p => cases p <;> simp [List.count_cons, List.count_nil]
  | holderBlock a => simp [List.count_cons, List.count_nil]

theorem IfNoShared_count_del (b : Nat) (cb : ControlBlockBase) :
    (cb.IfNoShared b).2.count (Event.deleteBlock b) = 0 := by
  unfold ControlBlockBase.IfNoShared
  cases cb.variant with
  | ptrBlock p => cases p <;> simp [List.count_cons, List.count_nil]
  | holderBlock a => simp [List.count_cons, List.count_nil]

theorem incShared_none_eq (h : Heap) : h.incShared none = h := rfl

theorem incWeak_none_eq (h : Heap) : h.incWeak none = h := rfl

theorem dtor_block_none (h : Heap) (s : SharedPtr) (hb : s.block_ = none) :
    SharedPtr.dtor h s = h := by
  unfold SharedPtr.dtor
  rw [hb]

theorem wdtor_block_none (h : Heap) (w : WeakPtr) (hb : w.block_ = none) :
    WeakPtr.dtor h w = h := by
  unfold WeakPtr.dtor
  rw [hb]

theorem incShared_blocks_self (h : Heap) (b : Nat) (cb : ControlBlockBase)
    (hcb : h.blocks b = some cb) :
    (h.incShared (some b)).blocks b =
      some { cb with shared_refs := cb.shared_refs + 1 } := by
  simp [Heap.incShared, hcb, updateFn_self]

theorem incWeak_blocks_self (h : Heap) (b : Nat) (cb : ControlBlockBase)
    (hcb : h.blocks b = some cb) :
    (h.incWeak (some b)).blocks b =
      some { cb with weak_refs := cb.weak_refs + 1 } := by
  simp [Heap.incWeak, hcb, updateFn_self]

theorem incShared_events (h : Heap) (b? : Option Nat) :
    (h.incShared b?).events = h.events := by
  cases b? with
  | none => simp [Heap.incShared]
  | some b => cases hcb : h.blocks b <;> simp [Heap.incShared, hcb]

theorem incWeak_events (h : Heap) (b? : Option Nat) :
    (h.incWeak b?).events = h.events := by
  cases b? with
  | none => simp [Heap.incWeak]
  | some b => cases hcb : h.blocks b <;> simp [Heap.incWeak, hcb]

theorem InvH_incShared (b : Nat) (h : Heap) (S W : Nat)
    (hI : InvH b h S W) (hS : 0 < S) : InvH b (h.incShared (some b)) (S + 1) W := by
  cases hcb : h.blocks b with
  | none =>
      have h0 := hI.2 hcb
      omega
  | some cb =>
      obtain ⟨hsh, hwk, hpos, hins, hdel⟩ := hI.1 cb hcb
      have hbl := incShared_blocks_self h b cb hcb
      have hev := incShared_events h (some b)
      have hinsEq : insCount b (h.incShared (some b)) = insCount b h := by
        unfold insCount
        rw [hev]
      have hdelEq : delCount b (h.incShared (some b)) = delCount b h := by
        unfold delCount
        rw [hev]
      constructor
      · intro cb' hcb'
        rw [hbl] at hcb'
        injection hcb' with hcb'
        subst hcb'
        refine ⟨?_, ?_, ?_, ?_, ?_⟩
        · show cb.shared_refs + 1 = ((S + 1 : Nat) : Int)
          rw [hsh]
          push_cast
          ring
        · show cb.weak_refs = (W : Int)
          exact hwk
        · omega
        · rw [hinsEq, hins]
          have : ¬(S + 1 = 0) := by omega
          have hS0 : ¬(S = 0) := by omega
          simp [this, hS0]
        · rw [hdelEq]
          exact hdel
      · intro hnone
        rw [hbl] at hnone
        exact absurd hnone (by simp)

theorem InvH_incWeak (b : Nat) (h : Heap) (S W : Nat)
    (hI : InvH b h S W) (hSW : 0 < S + W) : InvH b (h.incWeak (some b)) S (W + 1) := by
  cases hcb : h.blocks b with
  | none =>
      have h0 := hI.2 hcb
      omega
  | some cb =>
      obtain ⟨hsh, hwk, hpos, hins, hdel⟩ := hI.1 cb hcb
      have hbl := incWeak_blocks_self h b cb hcb
      have hev := incWeak_events h (some b)
      have hinsEq : insCount b (h.incWeak (some b)) = insCount b h := by
        unfold insCount
        rw [hev]
      have hdelEq : delCount b (h.incWeak (some b)) = delCount b h := by
        unfold delCount
        rw [hev]
      constructor
      · intro cb' hcb'
        rw [hbl] at hcb'
        injection hcb' with hcb'
        subst hcb'
        refine ⟨hsh, ?_, ?_, ?_, ?_⟩
        · show cb.weak_refs + 1 = ((W + 1 : Nat) : Int)
          rw [hwk]
          push_cast
          ring
        · omega
        · rw [hinsEq]
          exact hins
        · rw [hdelEq]
          exact hdel
      · intro hnone
        rw [hbl] at hnone
        exact absurd hnone (by simp)

theorem InvH_dtorStrong (b : Nat) (h : Heap) (S W : Nat) (s : SharedPtr)
    (hb : s.block_ = some b) (hI : InvH b h S W) (hS : 0 < S) :
    InvH b (SharedPtr.dtor h s) (S - 1) W := by
  cases hcb : h.blocks b with
  | none =>
      have h0 := hI.2 hcb
      omega
  | some cb =>
      obtain ⟨hsh, hwk, hpos, hins, hdel⟩ := hI.1 cb hcb
      rcases Nat.lt_or_ge S 2 with hS1 | hS2
      · have hSeq : S = 1 := by omega
        have hfire : (cb.shared_refs - 1 == 0) = true := by
          simp [hsh]
          omega
        rcases Nat.eq_zero_or_pos W with hW0 | hWpos
        · -- last strong handle, no weak handles: release object then delete block
          have hsum : (cb.shared_refs - 1 + cb.weak_refs == 0) = true := by
            simp [hsh, hwk]
            omega
          simp only [SharedPtr.dtor, hb, hcb, hfire, IfNoShared_shared_refs,
            IfNoShared_weak_refs, if_true, hsum]
          constructor
          · intro cb' hcb'
            simp only [updateFn_self] at hcb'
            cases hcb'
          · intro _
            refine ⟨by omega, hW0, ?_, ?_⟩
            · unfold insCount at hins ⊢
              simp [List.count_append, IfNoShared_count_ins, hins, hSeq]
            · unfold delCount at hdel ⊢
              simp [List.count_append, IfNoShared_count_del, hdel]
        · -- last strong handle but weak handles remain: release object, keep block
          have hsum : (cb.shared_refs - 1 + cb.weak_refs == 0) = false := by
            simp [hsh, hwk]
            omega
          simp only [SharedPtr.dtor, hb, hcb, hfire, IfNoShared_shared_refs,
            IfNoShared_weak_refs, if_true, hsum, Bool.false_eq_true, if_false]
          constructor
          · intro cb' hcb'
            simp only [updateFn_self, Option.some.injEq] at hcb'
            subst hcb'
            refine ⟨?_, ?_, by omega, ?_, ?_⟩
            · rw [IfNoShared_shared_refs]
              show cb.shared_refs - 1 = ((S - 1 : Nat) : Int)
              rw [hsh, hSeq]
              simp
            · rw [IfNoShared_weak_refs]
              exact hwk
            · unfold insCount at hins ⊢
              simp [List.count_append, IfNoShared_count_ins, hins, hSeq]
            · unfold delCount at hdel ⊢
              simp [List.count_append, IfNoShared_count_del, hdel]
          · intro hnone
            simp only [updateFn_self] at hnone
            cases hnone
      · -- other strong handles remain: only the counter changes
        have hfire : (cb.shared_refs - 1 == 0) = false := by
          simp [hsh]
          omega
        have hsum : (cb.shared_refs - 1 + cb.weak_refs == 0) = false := by
          simp [hsh, hwk]
          omega
        simp only [SharedPtr.dtor, hb, hcb, hfire, Bool.false_eq_true, if_false, hsum]
        constructor
        · intro cb' hcb'
          simp only [updateFn_self, Option.some.injEq] at hcb'
          subst hcb'
          refine ⟨?_, hwk, by omega, ?_, ?_⟩
          · show cb.shared_refs - 1 = ((S - 1 : Nat) : Int)
            rw [hsh]
            omega
          · unfold insCount at hins ⊢
            simp only [List.count_append, List.count_nil, Nat.add_zero]
            rw [hins]
            have h1 : ¬(S = 0) := by omega
            have h2 : ¬(S - 1 = 0) := by omega
            simp [h1, h2]
          · unfold delCount at hdel ⊢
            simp only [List.count_append, List.count_nil, Nat.add_zero]
            exact hdel
        · intro hnone
          simp only [updateFn_self] at hnone
          cases hnone

theorem InvH_dtorWeak (b : Nat) (h : Heap) (S W : Nat) (w : WeakPtr)
    (hb : w.block_ = some b) (hI : InvH b h S W) (hW : 0 < W) :
    InvH b (WeakPtr.dtor h w) S (W - 1) := by
  cases hcb : h.blocks b with
  | none =>
      have h0 := hI.2 hcb
      omega
  | some cb =>
      obtain ⟨hsh, hwk, hpos, hins, hdel⟩ := hI.1 cb hcb
      by_cases hlast : S = 0 ∧ W = 1
      · -- last handle of any kind: the block is deleted
        have hsum : (cb.shared_refs + (cb.weak_refs - 1) == 0) = true := by
          simp [hsh, hwk]
          omega
        simp only [WeakPtr.dtor, hb, hcb, hsum, if_true]
        constructor
        · intro cb' hcb'
          simp only [updateFn_self] at hcb'
          cases hcb'
        · intro _
          refine ⟨hlast.1, by omega, ?_, ?_⟩
          · unfold insCount at hins ⊢
            simp only [List.count_append]
            rw [hins]
            simp [hlast.1]
          · unfold delCount at hdel ⊢
            simp only [List.count_append]
            rw [hdel]
            simp
      · -- other handles remain: only the weak counter changes
        have hsum : (cb.shared_refs + (cb.weak_refs - 1) == 0) = false := by
          simp [hsh, hwk]
          omega
        simp only [WeakPtr.dtor, hb, hcb, hsum, Bool.false_eq_true, if_false]
        constructor
        · intro cb' hcb'
          simp only [updateFn_self, Option.some.injEq] at hcb'
          subst hcb'
          refine ⟨hsh, ?_, by omega, hins, hdel⟩
          show cb.weak_refs - 1 = ((W - 1 : Nat) : Int)
          rw [hwk]
          omega
        · intro hnone
          simp only [updateFn_self] at hnone
          cases hnone

theorem refsStrong_strong (b : Nat) (s : SharedPtr) :
    refsStrong b (some (Handle.strong s)) = (s.block_ == some b) := rfl

theorem refsStrong_weak (b : Nat) (w : WeakPtr) :
    refsStrong b (some (Handle.weak w)) = false := rfl

theorem refsStrong_none (b : Nat) : refsStrong b none = false := rfl

theorem refsWeak_weak (b : Nat) (w : WeakPtr) :
    refsWeak b (some (Handle.weak w)) = (w.block_ == some b) := rfl

theorem refsWeak_strong (b : Nat) (s : SharedPtr) :
    refsWeak b (some (Handle.strong s)) = false := rfl

theorem refsWeak_none (b : Nat) : refsWeak b none = false := rfl

theorem sCount_append_one (b : Nat) (l : List (Option Handle)) (o : Option Handle) :
    sCount b (l ++ [o]) = sCount b l + (if refsStrong b o then 1 else 0) := by
  simp [sCount, List.countP_append, List.countP_singleton]

theorem wCount_append_one (b : Nat) (l : List (Option Handle)) (o : Option Handle) :
    wCount b (l ++ [o]) = wCount b l + (if refsWeak b o then 1 else 0) := by
  simp [wCount, List.countP_append, List.countP_singleton]

theorem sCount_set (b : Nat) (l : List (Option Handle)) (i : Nat)
    (v x : Option Handle) (hx : l[i]? = some x) :
    sCount b (l.set i v) + (if refsStrong b x then 1 else 0) =
      sCount b l + (if refsStrong b v then 1 else 0) :=
  countP_set_eq (refsStrong b) v x l i hx

theorem wCount_set (b : Nat) (l : List (Option Handle)) (i : Nat)
    (v x : Option Handle) (hx : l[i]? = some x) :
    wCount b (l.set i v) + (if refsWeak b x then 1 else 0) =
      wCount b l + (if refsWeak b v then 1 else 0) :=
  countP_set_eq (refsWeak b) v x l i hx

theorem sCount_pos_of_slot (b : Nat) (l : List (Option Handle)) (i : Nat)
    (s : SharedPtr) (hx : l[i]? = some (some (Handle.strong s)))
    (hb : s.block_ = some b) : 0 < sCount b l := by
  have hmem := mem_of_getElem?_eq hx
  unfold sCount
  rw [List.countP_pos_iff]
  exact ⟨some (Handle.strong s), hmem, by simp [refsStrong_strong, hb]⟩

theorem wCount_pos_of_slot (b : Nat) (l : List (Option Handle)) (i : Nat)
    (w : WeakPtr) (hx : l[i]? = some (some (Handle.weak w)))
    (hb : w.block_ = some b) : 0 < wCount b l := by
  have hmem := mem_of_getElem?_eq hx
  unfold wCount
  rw [List.countP_pos_iff]
  exact ⟨some (Handle.weak w), hmem, by simp [refsWeak_weak, hb]⟩

theorem onlyB_append (b : Nat) (l : List (Option Handle)) (o : Option Handle)
    (hl : onlyB b l)
    (ho : ∀ s, o = some (Handle.strong s) → s.block_ = none ∨ s.block_ = some b) :
    onlyB b (l ++ [o]) := by
  intro x hx s hs
  rcases List.mem_append.1 hx with h1 | h1
  · exact hl x h1 s hs
  · rw [List.mem_singleton.1 h1] at hs
    exact ho s hs

theorem onlyBW_append (b : Nat) (l : List (Option Handle)) (o : Option Handle)
    (hl : onlyBW b l)
    (ho : ∀ w, o = some (Handle.weak w) → w.block_ = none ∨ w.block_ = some b) :
    onlyBW b (l ++ [o]) := by
  intro x hx w hw
  rcases List.mem_append.1 hx with h1 | h1
  · exact hl x h1 w hw
  · rw [List.mem_singleton.1 h1] at hw
    exact ho w hw

theorem onlyB_set (b : Nat) (l : List (Option Handle)) (i : Nat)
    (v : Option Handle) (hl : onlyB b l)
    (hv : ∀ s, v = some (Handle.strong s) → s.block_ = none ∨ s.block_ = some b) :
    onlyB b (l.set i v) := by
  intro x hx s hs
  rcases List.mem_or_eq_of_mem_set hx with h1 | h1
  · exact hl x h1 s hs
  · rw [h1] at hs
    exact hv s hs

theorem onlyBW_set (b : Nat) (l : List (Option Handle)) (i : Nat)
    (v : Option Handle) (hl : onlyBW b l)
    (hv : ∀ w, v = some (Handle.weak w) → w.block_ = none ∨ w.block_ = some b) :
    onlyBW b (l.set i v) := by
  intro x hx w hw
  rcases List.mem_or_eq_of_mem_set hx with h1 | h1
  · exact hl x h1 w hw
  · rw [h1] at hw
    exact hv w hw

theorem InvH_congr (b : Nat) (h : Heap) (S W S' W' : Nat)
    (hI : InvH b h S W) (h1 : S = S') (h2 : W = W') : InvH b h S' W' := by
  subst h1
  subst h2
  exact hI

theorem getStrong_some (st : MState) (i : Nat) (s : SharedPtr)
    (h : getStrong st i = some s) :
    st.slots[i]? = some (some (Handle.strong s)) := by
  unfold getStrong at h
  cases hx : st.slots[i]? with
  | none => simp [hx] at h
  | some o =>
      cases o with
      | none => simp [hx] at h
      | some hh =>
          cases hh with
          | strong s2 =>
              simp only [hx] at h
              injection h with h
              subst h
              rfl
          | weak w => simp [hx] at h

theorem getWeak_some (st : MState) (i : Nat) (w : WeakPtr)
    (h : getWeak st i = some w) :
    st.slots[i]? = some (some (Handle.weak w)) := by
  unfold getWeak at h
  cases hx : st.slots[i]? with
  | none => simp [hx] at h
  | some o =>
      cases o with
      | none => simp [hx] at h
      | some hh =>
          cases hh with
          | strong s2 => simp [hx] at h
          | weak w2 =>
              simp only [hx] at h
              injection h with h
              subst h
              rfl

theorem dtor_null (h : Heap) : SharedPtr.dtor h SharedPtr.null = h :=
  dtor_block_none h SharedPtr.null rfl

theorem wdtor_null (h : Heap) : WeakPtr.dtor h WeakPtr.null = h :=
  wdtor_block_none h WeakPtr.null rfl

theorem ho_strong_of (b : Nat) (s : SharedPtr)
    (hok : s.block_ = none ∨ s.block_ = some b) :
    ∀ s2, (some (Handle.strong s) : Option Handle) = some (Handle.strong s2) →
      s2.block_ = none ∨ s2.block_ = some b := by
  intro s2 hh
  injection hh with hh
  injection hh with hh
  subst hh
  exact hok

theorem ho_strong_none_block (b : Nat) (p : Option RawPtr) :
    ∀ s2, (some (Handle.strong ⟨p, none⟩) : Option Handle) = some (Handle.strong s2) →
      s2.block_ = none ∨ s2.block_ = some b :=
  ho_strong_of b ⟨p, none⟩ (Or.inl rfl)

theorem ho_strong_vs_weak (b : Nat) (s : SharedPtr) :
    ∀ w, (some (Handle.strong s) : Option Handle) = some (Handle.weak w) →
      w.block_ = none ∨ w.block_ = some b := by
  intro w hh
  injection hh with hh
  injection hh

theorem ho_weak_of (b : Nat) (w : WeakPtr)
    (hok : w.block_ = none ∨ w.block_ = some b) :
    ∀ w2, (some (Handle.weak w) : Option Handle) = some (Handle.weak w2) →
      w2.block_ = none ∨ w2.block_ = some b := by
  intro w2 hh
  injection hh with hh
  injection hh with hh
  subst hh
  exact hok

theorem ho_weak_vs_strong (b : Nat) (w : WeakPtr) :
    ∀ s, (some (Handle.weak w) : Option Handle) = some (Handle.strong s) →
      s.block_ = none ∨ s.block_ = some b := by
  intro s hh
  injection hh with hh
  injection hh

theorem ho_none_strong (b : Nat) :
    ∀ s, (none : Option Handle) = some (Handle.strong s) →
      s.block_ = none ∨ s.block_ = some b := by
  intro s hh
  cases hh

theorem ho_none_weak (b : Nat) :
    ∀ w, (none : Option Handle) = some (Handle.weak w) →
      w.block_ = none ∨ w.block_ = some b := by
  intro w hh
  cases hh

theorem MInv_copyStrong (b : Nat) (st : MState) (i : Nat) (hI : MInv b st) :
    MInv b (step st (Op.copyStrong i)) := by
  obtain ⟨hOB, hOW, hIH⟩ := hI
  cases hg : getStrong st i with
  | none =>
      simp only [step, hg]
      exact ⟨hOB, hOW, hIH⟩
  | some s =>
      have hs := getStrong_some st i s hg
      have hok := hOB _ (mem_of_getElem?_eq hs) s rfl
      simp only [step, hg, SharedPtr.copy]
      rcases hok with hn | hbk
      · rw [hn]
        refine ⟨onlyB_append b _ _ hOB (ho_strong_none_block b s.ptr_),
                onlyBW_append b _ _ hOW (ho_strong_vs_weak b ⟨s.ptr_, none⟩), ?_⟩
        rw [incShared_none_eq]
        exact InvH_congr b st.heap _ _ _ _ hIH
          (by simp [sCount_append_one, refsStrong_strong])
          (by simp [wCount_append_one, refsWeak_strong])
      · have hpos := sCount_pos_of_slot b st.slots i s hs hbk
        rw [hbk]
        refine ⟨onlyB_append b _ _ hOB (ho_strong_of b ⟨s.ptr_, some b⟩ (Or.inr rfl)),
                onlyBW_append b _ _ hOW (ho_strong_vs_weak b ⟨s.ptr_, some b⟩), ?_⟩
        exact InvH_congr b _ _ _ _ _ (InvH_incShared b st.heap _ _ hIH hpos)
          (by simp [sCount_append_one, refsStrong_strong])
          (by simp [wCount_append_one, refsWeak_strong])

theorem SharedPtr_null_block : SharedPtr.null.block_ = none := rfl

theorem WeakPtr_null_block : WeakPtr.null.block_ = none := rfl

theorem refsStrong_null (b : Nat) :
    refsStrong b (some (Handle.strong SharedPtr.null)) = false := rfl

theorem refsWeak_null (b : Nat) :
    refsWeak b (some (Handle.weak WeakPtr.null)) = false := rfl

theorem refsStrong_mk (b : Nat) (p : Option RawPtr) (q : Option Nat) :
    refsStrong b (some (Handle.strong ⟨p, q⟩)) = (q == some b) := rfl

theorem refsWeak_mk (b : Nat) (p : Option RawPtr) (q : Option Nat) :
    refsWeak b (some (Handle.weak ⟨p, q⟩)) = (q == some b) := rfl

theorem MInv_moveStrong (b : Nat) (st : MState) (i : Nat) (hI : MInv b st) :
    MInv b (step st (Op.moveStrong i)) := by
  obtain ⟨hOB, hOW, hIH⟩ := hI
  cases hg : getStrong st i with
  | none =>
      simp only [step, hg]
      exact ⟨hOB, hOW, hIH⟩
  | some s =>
      have hs := getStrong_some st i s hg
      have hok := hOB _ (mem_of_getElem?_eq hs) s rfl
      simp only [step, hg, SharedPtr.moveCtor]
      have hset := sCount_set b st.slots i (some (Handle.strong SharedPtr.null))
        (some (Handle.strong s)) hs
      have hwset := wCount_set b st.slots i (some (Handle.strong SharedPtr.null))
        (some (Handle.strong s)) hs
      refine ⟨onlyB_append b _ _
                (onlyB_set b _ i _ hOB (ho_strong_of b SharedPtr.null (Or.inl rfl)))
                (ho_strong_of b ⟨s.ptr_, s.block_⟩ (by simpa using hok)),
              onlyBW_append b _ _
                (onlyBW_set b _ i _ hOW (ho_strong_vs_weak b SharedPtr.null))
                (ho_strong_vs_weak b ⟨s.ptr_, s.block_⟩), ?_⟩
      refine InvH_congr b st.heap _ _ _ _ hIH ?_ ?_
      · simp [sCount_append_one, refsStrong_strong, refsStrong_null, refsStrong_mk,
          SharedPtr_null_block] at hset ⊢
        omega
      · simp [wCount_append_one, refsWeak_strong, refsWeak_null, refsWeak_mk,
          WeakPtr_null_block, SharedPtr_null_block] at hwset ⊢
        omega

theorem MInv_copyWeak (b : Nat) (st : MState) (i : Nat) (hI : MInv b st) :
    MInv b (step st (Op.copyWeak i)) := by
  obtain ⟨hOB, hOW, hIH⟩ := hI
  cases hg : getWeak st i with
  | none =>
      simp only [step, hg]
      exact ⟨hOB, hOW, hIH⟩
  | some w =>
      have hs := getWeak_some st i w hg
      have hok := hOW _ (mem_of_getElem?_eq hs) w rfl
      simp only [step, hg, WeakPtr.copy]
      rcases hok with hn | hbk
      · rw [hn]
        refine ⟨onlyB_append b _ _ hOB (ho_weak_vs_strong b ⟨w.ptr_, none⟩),
                onlyBW_append b _ _ hOW (ho_weak_of b ⟨w.ptr_, none⟩ (Or.inl rfl)), ?_⟩
        rw [incWeak_none_eq]
        exact InvH_congr b st.heap _ _ _ _ hIH
          (by simp [sCount_append_one, refsStrong_weak])
          (by simp [wCount_append_one, refsWeak_weak])
      · have hpos := wCount_pos_of_slot b st.slots i w hs hbk
        rw [hbk]
        refine ⟨onlyB_append b _ _ hOB (ho_weak_vs_strong b ⟨w.ptr_, some b⟩),
                onlyBW_append b _ _ hOW (ho_weak_of b ⟨w.ptr_, some b⟩ (Or.inr rfl)), ?_⟩
        exact InvH_congr b _ _ _ _ _
          (InvH_incWeak b st.heap _ _ hIH (by omega))
          (by simp [sCount_append_one, refsStrong_weak])
          (by simp [wCount_append_one, refsWeak_weak])

theorem MInv_moveWeak (b : Nat) (st : MState) (i : Nat) (hI : MInv b st) :
    MInv b (step st (Op.moveWeak i)) := by
  obtain ⟨hOB, hOW, hIH⟩ := hI
  cases hg : getWeak st i with
  | none =>
      simp only [step, hg]
      exact ⟨hOB, hOW, hIH⟩
  | some w =>
      have hs := getWeak_some st i w hg
      have hok := hOW _ (mem_of_getElem?_eq hs) w rfl
      simp only [step, hg, WeakPtr.moveCtor]
      have hset := sCount_set b st.slots i (some (Handle.weak WeakPtr.null))
        (some (Handle.weak w)) hs
      have hwset := wCount_set b st.slots i (some (Handle.weak WeakPtr.null))
        (some (Handle.weak w)) hs
      refine ⟨onlyB_append b _ _
                (onlyB_set b _ i _ hOB (ho_weak_vs_strong b WeakPtr.null))
                (ho_weak_vs_strong b ⟨w.ptr_, w.block_⟩),
              onlyBW_append b _ _
                (onlyBW_set b _ i _ hOW (ho_weak_of b WeakPtr.null (Or.inl rfl)))
                (ho_weak_of b ⟨w.ptr_, w.block_⟩ (by simpa using hok)), ?_⟩
      refine InvH_congr b st.heap _ _ _ _ hIH ?_ ?_
      · simp [sCount_append_one, refsStrong_weak, refsStrong_null, refsStrong_mk,
          SharedPtr_null_block, WeakPtr_null_block] at hset ⊢
        omega
      · simp [wCount_append_one, refsWeak_weak, refsWeak_null, refsWeak_mk,
          WeakPtr_null_block] at hwset ⊢
        omega

theorem MInv_weakFromStrong (b : Nat) (st : MState) (i : Nat) (hI : MInv b st) :
    MInv b (step st (Op.weakFromStrong i)) := by
  obtain ⟨hOB, hOW, hIH⟩ := hI
  cases hg : getStrong st i with
  | none =>
      simp only [step, hg]
      exact ⟨hOB, hOW, hIH⟩
  | some s =>
      have hs := getStrong_some st i s hg
      have hok := hOB _ (mem_of_getElem?_eq hs) s rfl
      simp only [step, hg, WeakPtr.fromShared]
      rcases hok with hn | hbk
      · rw [hn]
        refine ⟨onlyB_append b _ _ hOB (ho_weak_vs_strong b ⟨s.ptr_, none⟩),
                onlyBW_append b _ _ hOW (ho_weak_of b ⟨s.ptr_, none⟩ (Or.inl rfl)), ?_⟩
        rw [incWeak_none_eq]
        exact InvH_congr b st.heap _ _ _ _ hIH
          (by simp [sCount_append_one, refsStrong_weak])
          (by simp [wCount_append_one, refsWeak_weak])
      · have hpos := sCount_pos_of_slot b st.slots i s hs hbk
        rw [hbk]
        refine ⟨onlyB_append b _ _ hOB (ho_weak_vs_strong b ⟨s.ptr_, some b⟩),
                onlyBW_append b _ _ hOW (ho_weak_of b ⟨s.ptr_, some b⟩ (Or.inr rfl)), ?_⟩
        exact InvH_congr b _ _ _ _ _
          (InvH_incWeak b st.heap _ _ hIH (by omega))
          (by simp [sCount_append_one, refsStrong_weak])
          (by simp [wCount_append_one, refsWeak_weak])

theorem MInv_destroySlot (b : Nat) (st : MState) (i : Nat) (hI : MInv b st) :
    MInv b (step st (Op.destroySlot i)) := by
  obtain ⟨hOB, hOW, hIH⟩ := hI
  cases hx : st.slots[i]? with
  | none =>
      simp only [step, hx]
      exact ⟨hOB, hOW, hIH⟩
  | some o =>
      cases o with
      | none =>
          simp only [step, hx]
          exact ⟨hOB, hOW, hIH⟩
      | some hh =>
          cases hh with
          | strong s =>
              have hok := hOB _ (mem_of_getElem?_eq hx) s rfl
              simp only [step, hx]
              have hset := sCount_set b st.slots i none (some (Handle.strong s)) hx
              have hwset := wCount_set b st.slots i none (some (Handle.strong s)) hx
              refine ⟨onlyB_set b _ i _ hOB (ho_none_strong b),
                      onlyBW_set b _ i _ hOW (ho_none_weak b), ?_⟩
              rcases hok with hn | hbk
              · rw [dtor_block_none st.heap s hn]
                refine InvH_congr b st.heap _ _ _ _ hIH ?_ ?_
                · simp [refsStrong_strong, refsStrong_none, hn] at hset ⊢
                  omega
                · simp [refsWeak_strong, refsWeak_none] at hwset ⊢
                  omega
              · have hpos := sCount_pos_of_slot b st.slots i s hx hbk
                refine InvH_congr b _ _ _ _ _
                  (InvH_dtorStrong b st.heap _ _ s hbk hIH hpos) ?_ ?_
                · simp [refsStrong_strong, refsStrong_none, hbk] at hset ⊢
                  omega
                · simp [refsWeak_strong, refsWeak_none] at hwset ⊢
                  omega
          | weak w =>
              have hok := hOW _ (mem_of_getElem?_eq hx) w rfl
              simp only [step, hx]
              have hset := sCount_set b st.slots i none (some (Handle.weak w)) hx
              have hwset := wCount_set b st.slots i none (some (Handle.weak w)) hx
              refine ⟨onlyB_set b _ i _ hOB (ho_none_strong b),
                      onlyBW_set b _ i _ hOW (ho_none_weak b), ?_⟩
              rcases hok with hn | hbk
              · rw [wdtor_block_none st.heap w hn]
                refine InvH_congr b st.heap _ _ _ _ hIH ?_ ?_
                · simp [refsStrong_weak, refsStrong_none] at hset ⊢
                  omega
                · simp [refsWeak_weak, refsWeak_none, hn] at hwset ⊢
                  omega
              · have hpos := wCount_pos_of_slot b st.slots i w hx hbk
                refine InvH_congr b _ _ _ _ _
                  (InvH_dtorWeak b st.heap _ _ w hbk hIH hpos) ?_ ?_
                · simp [refsStrong_weak, refsStrong_none] at hset ⊢
                  omega
                · simp [refsWeak_weak, refsWeak_none, hbk] at hwset ⊢
                  omega

theorem Expired_of_block_none (h : Heap) (w : WeakPtr) (hn : w.block_ = none) :
    WeakPtr.Expired h w = true := by
  simp [WeakPtr.Expired, WeakPtr.UseCount, hn]

theorem Lock_expired (h : Heap) (w : WeakPtr) (hexp : WeakPtr.Expired h w = true) :
    WeakPtr.Lock h w = (SharedPtr.null, h) := by
  simp [WeakPtr.Lock, hexp]

theorem Lock_not_expired (h : Heap) (w : WeakPtr)
    (hexp : WeakPtr.Expired h w = false) :
    WeakPtr.Lock h w = (⟨w.ptr_, w.block_⟩, h.incShared w.block_) := by
  simp [WeakPtr.Lock, SharedPtr.fromWeak, hexp]

theorem strong_pos_of_not_expired (b : Nat) (h : Heap) (S W : Nat) (w : WeakPtr)
    (hIH : InvH b h S W) (hbk : w.block_ = some b)
    (hexp : WeakPtr.Expired h w = false) : 0 < S := by
  unfold WeakPtr.Expired WeakPtr.UseCount at hexp
  cases hcb : h.blocks b with
  | none => simp [hbk, hcb] at hexp
  | some cb =>
      obtain ⟨hsh, _, _, _, _⟩ := hIH.1 cb hcb
      simp only [hbk, hcb, beq_eq_false_iff_ne, ne_eq] at hexp
      rw [hsh] at hexp
      omega

theorem MInv_lockWeak (b : Nat) (st : MState) (i : Nat) (hI : MInv b st) :
    MInv b (step st (Op.lockWeak i)) := by
  obtain ⟨hOB, hOW, hIH⟩ := hI
  cases hg : getWeak st i with
  | none =>
      simp only [step, hg]
      exact ⟨hOB, hOW, hIH⟩
  | some w =>
      have hs := getWeak_some st i w hg
      have hok := hOW _ (mem_of_getElem?_eq hs) w rfl
      cases hexp : WeakPtr.Expired st.heap w with
      | true =>
          simp only [step, hg, Lock_expired st.heap w hexp]
          refine ⟨onlyB_append b _ _ hOB (ho_strong_of b SharedPtr.null (Or.inl rfl)),
                  onlyBW_append b _ _ hOW (ho_strong_vs_weak b SharedPtr.null), ?_⟩
          exact InvH_congr b st.heap _ _ _ _ hIH
            (by simp [sCount_append_one, refsStrong_null])
            (by simp [wCount_append_one, refsWeak_strong])
      | false =>
          rcases hok with hn | hbk
          · rw [Expired_of_block_none st.heap w hn] at hexp
            cases hexp
          · have hpos := strong_pos_of_not_expired b st.heap _ _ w hIH hbk hexp
            simp only [step, hg, Lock_not_expired st.heap w hexp]
            rw [hbk]
            refine ⟨onlyB_append b _ _ hOB (ho_strong_of b ⟨w.ptr_, some b⟩ (Or.inr rfl)),
                    onlyBW_append b _ _ hOW (ho_strong_vs_weak b ⟨w.ptr_, some b⟩), ?_⟩
            exact InvH_congr b _ _ _ _ _ (InvH_incShared b st.heap _ _ hIH hpos)
              (by simp [sCount_append_one, refsStrong_mk])
              (by simp [wCount_append_one, refsWeak_strong])

theorem MInv_assignCopyStrong (b : Nat) (st : MState) (i j : Nat) (hI : MInv b st) :
    MInv b (step st (Op.assignCopyStrong i j)) := by
  obtain ⟨hOB, hOW, hIH⟩ := hI
  cases hgi : getStrong st i with
  | none =>
      cases hgj : getStrong st j with
      | none =>
          simp only [step, hgi, hgj]
          exact ⟨hOB, hOW, hIH⟩
      | some sj =>
          simp only [step, hgi, hgj]
          exact ⟨hOB, hOW, hIH⟩
  | some si =>
      cases hgj : getStrong st j with
      | none =>
          simp only [step, hgi, hgj]
          exact ⟨hOB, hOW, hIH⟩
      | some sj =>
          have hsi := getStrong_some st i si hgi
          have hsj := getStrong_some st j sj hgj
          have hoki := hOB _ (mem_of_getElem?_eq hsi) si rfl
          have hokj := hOB _ (mem_of_getElem?_eq hsj) sj rfl
          simp only [step, hgi, hgj, SharedPtr.assignCopy, SharedPtr.copy, SharedPtr.Swap]
          have hset := sCount_set b st.slots i
            (some (Handle.strong ⟨sj.ptr_, sj.block_⟩)) (some (Handle.strong si)) hsi
          have hwset := wCount_set b st.slots i
            (some (Handle.strong ⟨sj.ptr_, sj.block_⟩)) (some (Handle.strong si)) hsi
          refine ⟨onlyB_set b _ i _ hOB
                    (ho_strong_of b ⟨sj.ptr_, sj.block_⟩ (by simpa using hokj)),
                  onlyBW_set b _ i _ hOW (ho_strong_vs_weak b ⟨sj.ptr_, sj.block_⟩), ?_⟩
          rcases hokj with hnj | hbj
          · rw [hnj] at hset hwset ⊢
            rw [incShared_none_eq]
            rcases hoki with hni | hbi
            · rw [dtor_block_none st.heap si hni]
              refine InvH_congr b st.heap _ _ _ _ hIH ?_ ?_
              · simp [refsStrong_strong, refsStrong_mk, hni] at hset ⊢
                omega
              · simp [refsWeak_strong] at hwset ⊢
                omega
            · have hpos := sCount_pos_of_slot b st.slots i si hsi hbi
              refine InvH_congr b _ _ _ _ _
                (InvH_dtorStrong b st.heap _ _ si hbi hIH hpos) ?_ ?_
              · simp [refsStrong_strong, refsStrong_mk, hbi] at hset ⊢
                omega
              · simp [refsWeak_strong] at hwset ⊢
                omega
          · have hposj := sCount_pos_of_slot b st.slots j sj hsj hbj
            have hInc := InvH_incShared b st.heap _ _ hIH hposj
            rw [hbj] at hset hwset ⊢
            rcases hoki with hni | hbi
            · rw [dtor_block_none _ si hni]
              refine InvH_congr b _ _ _ _ _ hInc ?_ ?_
              · simp [refsStrong_strong, refsStrong_mk, hni] at hset ⊢
                omega
              · simp [refsWeak_strong] at hwset ⊢
                omega
            · refine InvH_congr b _ _ _ _ _
                (InvH_dtorStrong b _ _ _ si hbi hInc (by omega)) ?_ ?_
              · simp [refsStrong_strong, refsStrong_mk, hbi] at hset ⊢
                omega
              · simp [refsWeak_strong] at hwset ⊢
                omega

theorem MInv_assignMoveStrong (b : Nat) (st : MState) (i j : Nat) (hI : MInv b st) :
    MInv b (step st (Op.assignMoveStrong i j)) := by
  obtain ⟨hOB, hOW, hIH⟩ := hI
  by_cases hij : i = j
  · subst hij
    cases hg : getStrong st i with
    | none =>
        simp only [step, hg, if_pos rfl]
        exact ⟨hOB, hOW, hIH⟩
    | some s =>
        have hs := getStrong_some st i s hg
        have hok := hOB _ (mem_of_getElem?_eq hs) s rfl
        simp only [step, hg, if_pos rfl, SharedPtr.selfAssignMove, SharedPtr.moveCtor,
          SharedPtr.Swap, dtor_null]
        have hset := sCount_set b st.slots i
          (some (Handle.strong ⟨s.ptr_, s.block_⟩)) (some (Handle.strong s)) hs
        have hwset := wCount_set b st.slots i
          (some (Handle.strong ⟨s.ptr_, s.block_⟩)) (some (Handle.strong s)) hs
        refine ⟨onlyB_set b _ i _ hOB
                  (ho_strong_of b ⟨s.ptr_, s.block_⟩ (by simpa using hok)),
                onlyBW_set b _ i _ hOW (ho_strong_vs_weak b ⟨s.ptr_, s.block_⟩), ?_⟩
        refine InvH_congr b st.heap _ _ _ _ hIH ?_ ?_
        · simp [refsStrong_strong, refsStrong_mk] at hset ⊢
          omega
        · simp [refsWeak_strong] at hwset ⊢
          omega
  · cases hgi : getStrong st i with
    | none =>
        cases hgj : getStrong st j with
        | none =>
            simp only [step, hgi, hgj, if_neg hij]
            exact ⟨hOB, hOW, hIH⟩
        | some sj =>
            simp only [step, hgi, hgj, if_neg hij]
            exact ⟨hOB, hOW, hIH⟩
    | some si =>
        cases hgj : getStrong st j with
        | none =>
            simp only [step, hgi, hgj, if_neg hij]
            exact ⟨hOB, hOW, hIH⟩
        | some sj =>
            have hsi := getStrong_some st i si hgi
            have hsj := getStrong_some st j sj hgj
            have hoki := hOB _ (mem_of_getElem?_eq hsi) si rfl
            have hokj := hOB _ (mem_of_getElem?_eq hsj) sj rfl
            simp only [step, hgi, hgj, if_neg hij, SharedPtr.assignMove,
              SharedPtr.moveCtor, SharedPtr.Swap]
            have hsi2 : (st.slots.set j (some (Handle.strong SharedPtr.null)))[i]? =
                some (some (Handle.strong si)) := by
              rw [List.getElem?_set_ne (fun hji => hij hji.symm)]
              exact hsi
            have hsetj := sCount_set b st.slots j
              (some (Handle.strong SharedPtr.null)) (some (Handle.strong sj)) hsj
            have hwsetj := wCount_set b st.slots j
              (some (Handle.strong SharedPtr.null)) (some (Handle.strong sj)) hsj
            have hseti := sCount_set b (st.slots.set j (some (Handle.strong SharedPtr.null))) i
              (some (Handle.strong ⟨sj.ptr_, sj.block_⟩)) (some (Handle.strong si)) hsi2
            have hwseti := wCount_set b (st.slots.set j (some (Handle.strong SharedPtr.null))) i
              (some (Handle.strong ⟨sj.ptr_, sj.block_⟩)) (some (Handle.strong si)) hsi2
            refine ⟨onlyB_set b _ i _
                      (onlyB_set b _ j _ hOB (ho_strong_of b SharedPtr.null (Or.inl rfl)))
                      (ho_strong_of b ⟨sj.ptr_, sj.block_⟩ (by simpa using hokj)),
                    onlyBW_set b _ i _
                      (onlyBW_set b _ j _ hOW (ho_strong_vs_weak b SharedPtr.null))
                      (ho_strong_vs_weak b ⟨sj.ptr_, sj.block_⟩), ?_⟩
            rcases hoki with hni | hbi
            · rw [dtor_block_none st.heap si hni]
              refine InvH_congr b st.heap _ _ _ _ hIH ?_ ?_
              · simp [refsStrong_strong, refsStrong_mk, refsStrong_null, hni,
                  SharedPtr_null_block] at hsetj hseti ⊢
                omega
              · simp [refsWeak_strong] at hwsetj hwseti ⊢
                omega
            · have hpos := sCount_pos_of_slot b st.slots i si hsi hbi
              refine InvH_congr b _ _ _ _ _
                (InvH_dtorStrong b st.heap _ _ si hbi hIH hpos) ?_ ?_
              · simp [refsStrong_strong, refsStrong_mk, refsStrong_null, hbi,
                  SharedPtr_null_block] at hsetj hseti ⊢
                omega
              · simp [refsWeak_strong] at hwsetj hwseti ⊢
                omega

theorem MInv_assignCopyWeak (b : Nat) (st : MState) (i j : Nat) (hI : MInv b st) :
    MInv b (step st (Op.assignCopyWeak i j)) := by
  obtain ⟨hOB, hOW, hIH⟩ := hI
  cases hgi : getWeak st i with
  | none =>
      cases hgj : getWeak st j with
      | none =>
          simp only [step, hgi, hgj]
          exact ⟨hOB, hOW, hIH⟩
      | some wj =>
          simp only [step, hgi, hgj]
          exact ⟨hOB, hOW, hIH⟩
  | some wi =>
      cases hgj : getWeak st j with
      | none =>
          simp only [step, hgi, hgj]
          exact ⟨hOB, hOW, hIH⟩
      | some wj =>
          have hsi := getWeak_some st i wi hgi
          have hsj := getWeak_some st j wj hgj
          have hoki := hOW _ (mem_of_getElem?_eq hsi) wi rfl
          have hokj := hOW _ (mem_of_getElem?_eq hsj) wj rfl
          simp only [step, hgi, hgj, WeakPtr.assignCopy, WeakPtr.copy, WeakPtr.Swap]
          have hset := sCount_set b st.slots i
            (some (Handle.weak ⟨wj.ptr_, wj.block_⟩)) (some (Handle.weak wi)) hsi
          have hwset := wCount_set b st.slots i
            (some (Handle.weak ⟨wj.ptr_, wj.block_⟩)) (some (Handle.weak wi)) hsi
          refine ⟨onlyB_set b _ i _ hOB (ho_weak_vs_strong b ⟨wj.ptr_, wj.block_⟩),
                  onlyBW_set b _ i _ hOW
                    (ho_weak_of b ⟨wj.ptr_, wj.block_⟩ (by simpa using hokj)), ?_⟩
          rcases hokj with hnj | hbj
          · rw [hnj] at hset hwset ⊢
            rw [incWeak_none_eq]
            rcases hoki with hni | hbi
            · rw [wdtor_block_none st.heap wi hni]
              refine InvH_congr b st.heap _ _ _ _ hIH ?_ ?_
              · simp [refsStrong_weak] at hset ⊢
                omega
              · simp [refsWeak_weak, refsWeak_mk, hni] at hwset ⊢
                omega
            · have hpos := wCount_pos_of_slot b st.slots i wi hsi hbi
              refine InvH_congr b _ _ _ _ _
                (InvH_dtorWeak b st.heap _ _ wi hbi hIH hpos) ?_ ?_
              · simp [refsStrong_weak] at hset ⊢
                omega
              · simp [refsWeak_weak, refsWeak_mk, hbi] at hwset ⊢
                omega
          · have hposj := wCount_pos_of_slot b st.slots j wj hsj hbj
            have hInc := InvH_incWeak b st.heap _ _ hIH (by omega)
            rw [hbj] at hset hwset ⊢
            rcases hoki with hni | hbi
            · rw [wdtor_block_none _ wi hni]
              refine InvH_congr b _ _ _ _ _ hInc ?_ ?_
              · simp [refsStrong_weak] at hset ⊢
                omega
              · simp [refsWeak_weak, refsWeak_mk, hni] at hwset ⊢
                omega
            · refine InvH_congr b _ _ _ _ _
                (InvH_dtorWeak b _ _ _ wi hbi hInc (by omega)) ?_ ?_
              · simp [refsStrong_weak] at hset ⊢
                omega
              · simp [refsWeak_weak, refsWeak_mk, hbi] at hwset ⊢
                omega

theorem MInv_assignMoveWeak (b : Nat) (st : MState) (i j : Nat) (hI : MInv b st) :
    MInv b (step st (Op.assignMoveWeak i j)) := by
  obtain ⟨hOB, hOW, hIH⟩ := hI
  by_cases hij : i = j
  · subst hij
    cases hg : getWeak st i with
    | none =>
        simp only [step, hg, if_pos rfl]
        exact ⟨hOB, hOW, hIH⟩
    | some w =>
        have hs := getWeak_some st i w hg
        have hok := hOW _ (mem_of_getElem?_eq hs) w rfl
        simp only [step, hg, if_pos rfl, WeakPtr.selfAssignMove, WeakPtr.moveCtor,
          WeakPtr.Swap, wdtor_null]
        have hset := sCount_set b st.slots i
          (some (Handle.weak ⟨w.ptr_, w.block_⟩)) (some (Handle.weak w)) hs
        have hwset := wCount_set b st.slots i
          (some (Handle.weak ⟨w.ptr_, w.block_⟩)) (some (Handle.weak w)) hs
        refine ⟨onlyB_set b _ i _ hOB (ho_weak_vs_strong b ⟨w.ptr_, w.block_⟩),
                onlyBW_set b _ i _ hOW
                  (ho_weak_of b ⟨w.ptr_, w.block_⟩ (by simpa using hok)), ?_⟩
        refine InvH_congr b st.heap _ _ _ _ hIH ?_ ?_
        · simp [refsStrong_weak] at hset ⊢
          omega
        · simp [refsWeak_weak, refsWeak_mk] at hwset ⊢
          omega
  · cases hgi : getWeak st i with
    | none =>
        cases hgj : getWeak st j with
        | none =>
            simp only [step, hgi, hgj, if_neg hij]
            exact ⟨hOB, hOW, hIH⟩
        | some wj =>
            simp only [step, hgi, hgj, if_neg hij]
            exact ⟨hOB, hOW, hIH⟩
    | some wi =>
        cases hgj : getWeak st j with
        | none =>
            simp only [step, hgi, hgj, if_neg hij]
            exact ⟨hOB, hOW, hIH⟩
        | some wj =>
            have hsi := getWeak_some st i wi hgi
            have hsj := getWeak_some st j wj hgj
            have hoki := hOW _ (mem_of_getElem?_eq hsi) wi rfl
            have hokj := hOW _ (mem_of_getElem?_eq hsj) wj rfl
            simp only [step, hgi, hgj, if_neg hij, WeakPtr.assignMove,
              WeakPtr.moveCtor, WeakPtr.Swap]
            have hsi2 : (st.slots.set j (some (Handle.weak WeakPtr.null)))[i]? =
                some (some (Handle.weak wi)) := by
              rw [List.getElem?_set_ne (fun hji => hij hji.symm)]
              exact hsi
            have hsetj := sCount_set b st.slots j
              (some (Handle.weak WeakPtr.null)) (some (Handle.weak wj)) hsj
            have hwsetj := wCount_set b st.slots j
              (some (Handle.weak WeakPtr.null)) (some (Handle.weak wj)) hsj
            have hseti := sCount_set b (st.slots.set j (some (Handle.weak WeakPtr.null))) i
              (some (Handle.weak ⟨wj.ptr_, wj.block_⟩)) (some (Handle.weak wi)) hsi2
            have hwseti := wCount_set b (st.slots.set j (some (Handle.weak WeakPtr.null))) i
              (some (Handle.weak ⟨wj.ptr_, wj.block_⟩)) (some (Handle.weak wi)) hsi2
            refine ⟨onlyB_set b _ i _
                      (onlyB_set b _ j _ hOB (ho_weak_vs_strong b WeakPtr.null))
                      (ho_weak_vs_strong b ⟨wj.ptr_, wj.block_⟩),
                    onlyBW_set b _ i _
                      (onlyBW_set b _ j _ hOW (ho_weak_of b WeakPtr.null (Or.inl rfl)))
                      (ho_weak_of b ⟨wj.ptr_, wj.block_⟩ (by simpa using hokj)), ?_⟩
            rcases hoki with hni | hbi
            · rw [wdtor_block_none st.heap wi hni]
              refine InvH_congr b st.heap _ _ _ _ hIH ?_ ?_
              · simp [refsStrong_weak] at hsetj hseti ⊢
                omega
              · simp [refsWeak_weak, refsWeak_mk, refsWeak_null, hni,
                  WeakPtr_null_block] at hwsetj hwseti ⊢
                omega
            · have hpos := wCount_pos_of_slot b st.slots i wi hsi hbi
              refine InvH_congr b _ _ _ _ _
                (InvH_dtorWeak b st.heap _ _ wi hbi hIH hpos) ?_ ?_
              · simp [refsStrong_weak] at hsetj hseti ⊢
                omega
              · simp [refsWeak_weak, refsWeak_mk, refsWeak_null, hbi,
                  WeakPtr_null_block] at hwsetj hwseti ⊢
                omega

theorem MInv_assignWeakFromStrong (b : Nat) (st : MState) (i j : Nat) (hI : MInv b st) :
    MInv b (step st (Op.assignWeakFromStrong i j)) := by
  obtain ⟨hOB, hOW, hIH⟩ := hI
  cases hgi : getWeak st i with
  | none =>
      cases hgj : getStrong st j with
      | none =>
          simp only [step, hgi, hgj]
          exact ⟨hOB, hOW, hIH⟩
      | some sj =>
          simp only [step, hgi, hgj]
          exact ⟨hOB, hOW, hIH⟩
  | some wi =>
      cases hgj : getStrong st j with
      | none =>
          simp only [step, hgi, hgj]
          exact ⟨hOB, hOW, hIH⟩
      | some sj =>
          have hsi := getWeak_some st i wi hgi
          have hsj := getStrong_some st j sj hgj
          have hoki := hOW _ (mem_of_getElem?_eq hsi) wi rfl
          have hokj := hOB _ (mem_of_getElem?_eq hsj) sj rfl
          simp only [step, hgi, hgj, WeakPtr.assignFromShared, WeakPtr.fromShared,
            WeakPtr.Swap]
          have hset := sCount_set b st.slots i
            (some (Handle.weak ⟨sj.ptr_, sj.block_⟩)) (some (Handle.weak wi)) hsi
          have hwset := wCount_set b st.slots i
            (some (Handle.weak ⟨sj.ptr_, sj.block_⟩)) (some (Handle.weak wi)) hsi
          refine ⟨onlyB_set b _ i _ hOB (ho_weak_vs_strong b ⟨sj.ptr_, sj.block_⟩),
                  onlyBW_set b _ i _ hOW
                    (ho_weak_of b ⟨sj.ptr_, sj.block_⟩ (by simpa using hokj)), ?_⟩
          rcases hokj with hnj | hbj
          · rw [hnj] at hset hwset ⊢
            rw [incWeak_none_eq]
            rcases hoki with hni | hbi
            · rw [wdtor_block_none st.heap wi hni]
              refine InvH_congr b st.heap _ _ _ _ hIH ?_ ?_
              · simp [refsStrong_weak] at hset ⊢
                omega
              · simp [refsWeak_weak, refsWeak_mk, hni] at hwset ⊢
                omega
            · have hpos := wCount_pos_of_slot b st.slots i wi hsi hbi
              refine InvH_congr b _ _ _ _ _
                (InvH_dtorWeak b st.heap _ _ wi hbi hIH hpos) ?_ ?_
              · simp [refsStrong_weak] at hset ⊢
                omega
              · simp [refsWeak_weak, refsWeak_mk, hbi] at hwset ⊢
                omega
          · have hposj := sCount_pos_of_slot b st.slots j sj hsj hbj
            have hInc := InvH_incWeak b st.heap _ _ hIH (by omega)
            rw [hbj] at hset hwset ⊢
            rcases hoki with hni | hbi
            · rw [wdtor_block_none _ wi hni]
              refine InvH_congr b _ _ _ _ _ hInc ?_ ?_
              · simp [refsStrong_weak] at hset ⊢
                omega
              · simp [refsWeak_weak, refsWeak_mk, hni] at hwset ⊢
                omega
            · refine InvH_congr b _ _ _ _ _
                (InvH_dtorWeak b _ _ _ wi hbi hInc (by omega)) ?_ ?_
              · simp [refsStrong_weak] at hset ⊢
                omega
              · simp [refsWeak_weak, refsWeak_mk, hbi] at hwset ⊢
                omega

theorem MInv_step (b : Nat) (st : MState) (op : Op) (hI : MInv b st) :
    MInv b (step st op) := by
  cases op with
  | copyStrong i => exact MInv_copyStrong b st i hI
  | moveStrong i => exact MInv_moveStrong b st i hI
  | destroySlot i => exact MInv_destroySlot b st i hI
  | assignCopyStrong i j => exact MInv_assignCopyStrong b st i j hI
  | assignMoveStrong i j => exact MInv_assignMoveStrong b st i j hI
  | copyWeak i => exact MInv_copyWeak b st i hI
  | moveWeak i => exact MInv_moveWeak b st i hI
  | weakFromStrong i => exact MInv_weakFromStrong b st i hI
  | assignCopyWeak i j => exact MInv_assignCopyWeak b st i j hI
  | assignMoveWeak i j => exact MInv_assignMoveWeak b st i j hI
  | assignWeakFromStrong i j => exact MInv_assignWeakFromStrong b st i j hI
  | lockWeak i => exact MInv_lockWeak b st i hI

theorem MInv_run (b : Nat) (ops : List Op) (st : MState) (hI : MInv b st) :
    MInv b (run st ops) := by
  induction ops generalizing st with
  | nil => exact hI
  | cons op t ih => exact ih (step st op) (MInv_step b st op hI)

theorem initState_heap_blocks (p : Option RawPtr) :
    (initState p).heap.blocks 0 = some ⟨1, 0, ControlBlockVariant.ptrBlock p⟩ := rfl

theorem initState_slots (p : Option RawPtr) :
    (initState p).slots = [some (Handle.strong ⟨p, some 0⟩)] := rfl

theorem initState_sCount (p : Option RawPtr) : sCount 0 (initState p).slots = 1 := rfl

theorem initState_wCount (p : Option RawPtr) : wCount 0 (initState p).slots = 0 := rfl

theorem initState_insCount (p : Option RawPtr) : insCount 0 (initState p).heap = 0 := rfl

theorem initState_delCount (p : Option RawPtr) : delCount 0 (initState p).heap = 0 := rfl

theorem MInv_init (p : Option RawPtr) : MInv 0 (initState p) := by
  refine ⟨?_, ?_, ?_, ?_⟩
  · intro o ho s hs
    rw [initState_slots] at ho
    rw [List.mem_singleton.1 ho] at hs
    injection hs with hs
    injection hs with hs
    subst hs
    exact Or.inr rfl
  · intro o ho w hw
    rw [initState_slots] at ho
    rw [List.mem_singleton.1 ho] at hw
    injection hw with hw
    injection hw
  · intro cb hcb
    rw [initState_heap_blocks] at hcb
    injection hcb with hcb
    subst hcb
    rw [initState_sCount, initState_wCount, initState_insCount, initState_delCount]
    norm_num
  · intro hnone
    rw [initState_heap_blocks] at hnone
    cases hnone

/-- Is the strong counter of block `b` (when the block is still allocated)
equal to the number of live `SharedPtr` handles referencing `b`? -/
def sharedRefsOk (b : Nat) (st : MState) : Bool :=
  Option.all (fun cb => cb.shared_refs == (sCount b st.slots : Int)) (st.heap.blocks b)

/-- Is the weak counter of block `b` (when the block is still allocated)
equal to the number of live `WeakPtr` handles referencing `b`? -/
def weakRefsOk (b : Nat) (st : MState) : Bool :=
  Option.all (fun cb => cb.weak_refs == (wCount b st.slots : Int)) (st.heap.blocks b)

/-- An operation acting only on `SharedPtr` handles. -/
def isStrongOp : Op → Bool
  | Op.copyStrong _ => true
  | Op.moveStrong _ => true
  | Op.destroySlot _ => true
  | Op.assignCopyStrong _ _ => true
  | Op.assignMoveStrong _ _ => true
  | _ => false

theorem sharedRefsOk_of_MInv (b : Nat) (st : MState) (hI : MInv b st) :
    sharedRefsOk b st = true := by
  obtain ⟨_, _, hIH⟩ := hI
  unfold sharedRefsOk
  cases hcb : st.heap.blocks b with
  | none => rfl
  | some cb =>
      obtain ⟨hsh, _, _, _, _⟩ := hIH.1 cb hcb
      simp [Option.all, hsh]

theorem weakRefsOk_of_MInv (b : Nat) (st : MState) (hI : MInv b st) :
    weakRefsOk b st = true := by
  obtain ⟨_, _, hIH⟩ := hI
  unfold weakRefsOk
  cases hcb : st.heap.blocks b with
  | none => rfl
  | some cb =>
      obtain ⟨_, hwk, _, _, _⟩ := hIH.1 cb hcb
      simp [Option.all, hwk]

theorem insCount_of_MInv (b : Nat) (st : MState) (hI : MInv b st) :
    insCount b st.heap = (if sCount b st.slots = 0 then 1 else 0) := by
  obtain ⟨_, _, hIH⟩ := hI
  cases hcb : st.heap.blocks b with
  | none =>
      obtain ⟨hS, _, hins, _⟩ := hIH.2 hcb
      rw [hins, hS]
      simp
  | some cb =>
      obtain ⟨_, _, _, hins, _⟩ := hIH.1 cb hcb
      exact hins

theorem delCount_of_MInv (b : Nat) (st : MState) (hI : MInv b st) :
    delCount b st.heap =
      (if sCount b st.slots + wCount b st.slots = 0 then 1 else 0) := by
  obtain ⟨_, _, hIH⟩ := hI
  cases hcb : st.heap.blocks b with
  | none =>
      obtain ⟨hS, hW, _, hdel⟩ := hIH.2 hcb
      rw [hdel, hS, hW]
      simp
  | some cb =>
      obtain ⟨_, _, hpos, _, hdel⟩ := hIH.1 cb hcb
      rw [hdel]
      have : ¬(sCount b st.slots + wCount b st.slots = 0) := by omega
      simp [this]

theorem blocksNone_of_MInv (b : Nat) (st : MState) (hI : MInv b st) :
    (st.heap.blocks b).isNone =
      (sCount b st.slots + wCount b st.slots == 0) := by
  obtain ⟨_, _, hIH⟩ := hI
  cases hcb : st.heap.blocks b with
  | none =>
      obtain ⟨hS, hW, _, _⟩ := hIH.2 hcb
      rw [hS, hW]
      rfl
  | some cb =>
      obtain ⟨_, _, hpos, _, _⟩ := hIH.1 cb hcb
      symm
      simp only [Option.isNone_some, beq_eq_false_iff_ne, ne_eq]
      omega

/-- Claim C1: for every sequence of copy-constructions, move-constructions,
assignments and destructions of SharedPtr handles over the single control
block allocated by the raw-pointer constructor, the blocks shared_refs
counter always equals the number of live SharedPtr handles referencing the
block, and IfNoShared has run exactly once when that number is zero and not
at all while it is positive — since this holds after every prefix of the
sequence, IfNoShared is invoked exactly at the step where the count goes
from 1 to 0. -/
theorem claim_C1 (p : Option RawPtr) (ops : List Op)
    (hops : ops.all isStrongOp = true) :
    sharedRefsOk 0 (run (initState p) ops) = true ∧
    insCount 0 (run (initState p) ops).heap =
      (if sCount 0 (run (initState p) ops).slots = 0 then 1 else 0) := by
  have hI := MInv_run 0 ops (initState p) (MInv_init p)
  exact ⟨sharedRefsOk_of_MInv 0 _ hI, insCount_of_MInv 0 _ hI⟩

theorem claim_C1_witness :
    ([Op.copyStrong 0, Op.assignMoveStrong 0 0, Op.destroySlot 1,
        Op.destroySlot 0].all isStrongOp = true) ∧
    (sharedRefsOk 0 (run (initState (some (RawPtr.obj 0)))
        [Op.copyStrong 0, Op.assignMoveStrong 0 0, Op.destroySlot 1,
          Op.destroySlot 0]) = true ∧
     insCount 0 (run (initState (some (RawPtr.obj 0)))
        [Op.copyStrong 0, Op.assignMoveStrong 0 0, Op.destroySlot 1,
          Op.destroySlot 0]).heap =
       (if sCount 0 (run (initState (some (RawPtr.obj 0)))
          [Op.copyStrong 0, Op.assignMoveStrong 0 0, Op.destroySlot 1,
            Op.destroySlot 0]).slots = 0 then 1 else 0)) :=
  ⟨by decide,
   claim_C1 (some (RawPtr.obj 0))
     [Op.copyStrong 0, Op.assignMoveStrong 0 0, Op.destroySlot 1,
       Op.destroySlot 0] (by decide)⟩

/-- Claim C2: for every sequence mixing SharedPtr and WeakPtr handles over
the single control block, both counters always equal the respective numbers
of live handles, the block has been deallocated exactly once when
shared_refs + weak_refs is zero (equivalently: when no live handle
references it) and never while either count is positive, and the block is
gone from the heap precisely when both counts are zero — since this holds
after every prefix, the single deallocation happens exactly at the step
where the combined count reaches 0, whether a SharedPtr or a WeakPtr
destructor performs it. -/
theorem claim_C2 (p : Option RawPtr) (ops : List Op) :
    sharedRefsOk 0 (run (initState p) ops) = true ∧
    weakRefsOk 0 (run (initState p) ops) = true ∧
    delCount 0 (run (initState p) ops).heap =
      (if sCount 0 (run (initState p) ops).slots +
          wCount 0 (run (initState p) ops).slots = 0 then 1 else 0) ∧
    ((run (initState p) ops).heap.blocks 0).isNone =
      (sCount 0 (run (initState p) ops).slots +
        wCount 0 (run (initState p) ops).slots == 0) := by
  have hI := MInv_run 0 ops (initState p) (MInv_init p)
  exact ⟨sharedRefsOk_of_MInv 0 _ hI, weakRefsOk_of_MInv 0 _ hI,
    delCount_of_MInv 0 _ hI, blocksNone_of_MInv 0 _ hI⟩

/-- The scenario `SharedPtr<T> s(static_cast<T*>(nullptr));` — a live
control block whose strong count is 1 while the observed pointer is null. -/
def nullObsShared : SharedPtr × Heap := SharedPtr.fromRaw Heap.empty none

/-- `WeakPtr<T> w(s);` for the null-observing SharedPtr above. -/
def nullObsWeak : WeakPtr × Heap :=
  WeakPtr.fromShared nullObsShared.2 nullObsShared.1

/-- Claim C3 counterexample: a WeakPtr built from a SharedPtr that owns a
null raw pointer is not expired (the strong count is 1), yet Lock returns a
SharedPtr whose boolean conversion is false (its observed pointer is null),
even though it does share the block (UseCount is the previous strong count
plus one).  This refutes the claimed equivalence between a true boolean
conversion of the Lock result and non-expiry. -/
theorem claim_C3_counterexample :
    WeakPtr.Expired nullObsWeak.2 nullObsWeak.1 = false ∧
    SharedPtr.toBool (WeakPtr.Lock nullObsWeak.2 nullObsWeak.1).1 = false ∧
    SharedPtr.UseCount (WeakPtr.Lock nullObsWeak.2 nullObsWeak.1).2
        (WeakPtr.Lock nullObsWeak.2 nullObsWeak.1).1 =
      WeakPtr.UseCount nullObsWeak.2 nullObsWeak.1 + 1 := by
  refine ⟨by decide, by decide, by decide⟩

/-- Claim C3 (amended): `Lock` never throws (it is a total function, unlike
the promoting constructor, mirroring the noexcept source).  It returns a
SharedPtr sharing the observed pointer and block of the weak handle — with
`UseCount() == previous strong count + 1` — iff the handle is not expired
at call time; when expired it returns the empty SharedPtr, leaves the heap
untouched, and the result has `UseCount() == 0`.  (The returned handle has
boolean conversion true only when the shared observed pointer is non-null,
not unconditionally as the original claim stated.) -/
theorem claim_C3_amended (h : Heap) (w : WeakPtr) :
    WeakPtr.Lock h w =
      (if WeakPtr.Expired h w then SharedPtr.null else ⟨w.ptr_, w.block_⟩,
       if WeakPtr.Expired h w then h else h.incShared w.block_) ∧
    SharedPtr.UseCount (WeakPtr.Lock h w).2 (WeakPtr.Lock h w).1 =
      (if WeakPtr.Expired h w then 0 else WeakPtr.UseCount h w + 1) := by
  cases hexp : WeakPtr.Expired h w with
  | true =>
      rw [Lock_expired h w hexp]
      refine ⟨by simp, by simp [SharedPtr.UseCount, SharedPtr.null]⟩
  | false =>
      rw [Lock_not_expired h w hexp]
      refine ⟨by simp, ?_⟩
      simp only [Bool.false_eq_true, if_false]
      cases hb : w.block_ with
      | none =>
          rw [Expired_of_block_none h w hb] at hexp
          cases hexp
      | some b =>
          cases hcb : h.blocks b with
          | none =>
              have habs : WeakPtr.Expired h w = true := by
                simp [WeakPtr.Expired, WeakPtr.UseCount, hb, hcb]
              rw [habs] at hexp
              cases hexp
          | some cb =>
              have h1 : SharedPtr.UseCount (h.incShared (some b)) ⟨w.ptr_, some b⟩ =
                  cb.shared_refs + 1 := by
                unfold SharedPtr.UseCount
                simp [incShared_blocks_self h b cb hcb]
              have h2 : WeakPtr.UseCount h w = cb.shared_refs := by
                unfold WeakPtr.UseCount
                simp [hb, hcb]
              rw [h1, h2]

/-- The scenario `auto s = SharedPtr<T>(new T);` on the empty heap: block 0
owns heap object 7, strong count 1, weak count 0. -/
def demoShared : SharedPtr × Heap :=
  SharedPtr.fromRaw Heap.empty (some (RawPtr.obj 7))

/-- `WeakPtr<T> w(s);` for the demo SharedPtr: weak count becomes 1. -/
def demoWeak : WeakPtr × Heap := WeakPtr.fromShared demoShared.2 demoShared.1

/-- The control block of the demo scenario after the WeakPtr is attached. -/
def demoCB : ControlBlockBase :=
  ⟨1, 1, ControlBlockVariant.ptrBlock (some (RawPtr.obj 7))⟩

/-- Claim C4: promoting an expired WeakPtr to a SharedPtr raises the
dangling-weak-reference error (BadWeakPtr) every time and returns the heap
completely untouched (no field of the source and no control-block counter
is mutated).  Promoting a non-expired WeakPtr succeeds, the new handle
shares the observed pointer and block of the source, and the only state
change is that the strong counter of that block grows by exactly one
(a point update of the block map; events and every other block unchanged). -/
theorem claim_C4 (h : Heap) (w : WeakPtr) (b : Nat) (cb : ControlBlockBase) :
    (WeakPtr.Expired h w = true →
      SharedPtr.fromWeak h w = (Except.error BadWeakPtr.mk, h)) ∧
    (WeakPtr.Expired h w = false → w.block_ = some b → h.blocks b = some cb →
      SharedPtr.fromWeak h w =
        (Except.ok ⟨w.ptr_, w.block_⟩,
         { h with blocks := (updateFn h.blocks b
             (some { cb with shared_refs := cb.shared_refs + 1 })) })) := by
  constructor
  · intro hexp
    simp [SharedPtr.fromWeak, hexp]
  · intro hexp hb hcb
    simp [SharedPtr.fromWeak, hexp, Heap.incShared, hb, hcb]

theorem claim_C4_witness :
    (SharedPtr.fromWeak Heap.empty WeakPtr.null =
      (Except.error BadWeakPtr.mk, Heap.empty)) ∧
    (SharedPtr.fromWeak demoWeak.2 demoWeak.1 =
      (Except.ok ⟨demoWeak.1.ptr_, demoWeak.1.block_⟩,
       { demoWeak.2 with blocks := (updateFn demoWeak.2.blocks 0
           (some { demoCB with shared_refs := demoCB.shared_refs + 1 })) })) :=
  ⟨(claim_C4 Heap.empty WeakPtr.null 0 demoCB).1 (by decide),
   (claim_C4 demoWeak.2 demoWeak.1 0 demoCB).2 (by decide) (by decide) (by decide)⟩

theorem updateFn_updateFn_self (f : Nat → Option ControlBlockBase) (b : Nat)
    (v v2 : Option ControlBlockBase) :
    updateFn (updateFn f b v) b v2 = updateFn f b v2 := by
  funext x
  by_cases hx : x = b
  · subst hx
    rw [updateFn_self, updateFn_self]
  · rw [updateFn_ne _ _ _ _ hx, updateFn_ne _ _ _ _ hx, updateFn_ne _ _ _ _ hx]

theorem MakeShared_eq (h : Heap) :
    MakeShared h =
      (⟨some (RawPtr.storage h.next), some h.next⟩,
       { blocks := (updateFn h.blocks h.next
           (some ⟨1, 0, ControlBlockVariant.holderBlock true⟩)),
         next := h.next + 1,
         events := h.events ++ [Event.allocBlock h.next] }) := by
  unfold MakeShared SharedPtr.fromPtrAndBlock Heap.incShared
  simp [updateFn_self, updateFn_updateFn_self]

/-- Claim C5: a SharedPtr obtained from MakeShared observes the storage
embedded in the fresh inline control block and reports `UseCount() == 1`
immediately after construction.  Destroying this (sole strong) handle
appends exactly the events [IfNoShared, in-place object destructor call,
block deallocation] for that block: the managed object destructor runs
exactly once, in place, with no separate `delete` of the object storage
(no deleteObject event exists) — the storage is freed only together with
the control block, whose heap entry becomes empty. -/
theorem claim_C5 (h : Heap) :
    SharedPtr.UseCount (MakeShared h).2 (MakeShared h).1 = 1 ∧
    (MakeShared h).1.ptr_ = some (RawPtr.storage h.next) ∧
    (SharedPtr.dtor (MakeShared h).2 (MakeShared h).1).events =
      (MakeShared h).2.events ++
        [Event.ifNoShared h.next, Event.destructObject h.next,
          Event.deleteBlock h.next] ∧
    (SharedPtr.dtor (MakeShared h).2 (MakeShared h).1).blocks h.next = none := by
  rw [MakeShared_eq]
  refine ⟨?_, rfl, ?_, ?_⟩
  · unfold SharedPtr.UseCount
    simp [updateFn_self]
  · unfold SharedPtr.dtor
    simp [updateFn_self, ControlBlockBase.IfNoShared]
  · unfold SharedPtr.dtor
    simp [updateFn_self, updateFn_updateFn_self, ControlBlockBase.IfNoShared]

theorem Heap_eq (h1 h2 : Heap) (hb : h1.blocks = h2.blocks)
    (hn : h1.next = h2.next) (he : h1.events = h2.events) : h1 = h2 := by
  cases h1
  cases h2
  simp only at hb hn he
  rw [hb, hn, he]

theorem updateFn_eq_of_lookup (f : Nat → Option ControlBlockBase) (b : Nat)
    (v : Option ControlBlockBase) (hv : f b = v) : updateFn f b v = f := by
  funext x
  by_cases hx : x = b
  · subst hx
    rw [updateFn_self, hv]
  · rw [updateFn_ne _ _ _ _ hx]

/-- Incrementing the strong counter and then running one SharedPtr
destructor on the same live block restores the heap exactly, provided the
block held at least one strong and no negative weak reference before. -/
theorem incShared_dtor_cancel (h : Heap) (s : SharedPtr) (b : Nat)
    (cb : ControlBlockBase) (hb : s.block_ = some b) (hcb : h.blocks b = some cb)
    (hS : 1 ≤ cb.shared_refs) (hW : 0 ≤ cb.weak_refs) :
    SharedPtr.dtor (h.incShared (some b)) s = h := by
  have h1 : h.incShared (some b) =
      { h with blocks := (updateFn h.blocks b
          (some { cb with shared_refs := cb.shared_refs + 1 })) } := by
    simp [Heap.incShared, hcb]
  have hfire : (cb.shared_refs + 1 - 1 == 0) = false := by
    simp
    omega
  have hsum : (cb.shared_refs + 1 - 1 + cb.weak_refs == 0) = false := by
    simp
    omega
  unfold SharedPtr.dtor
  rw [h1]
  simp only [hb, updateFn_self, hfire, Bool.false_eq_true, if_false, hsum]
  refine Heap_eq _ _ ?_ rfl (by simp)
  rw [updateFn_updateFn_self]
  have hcb' : ({ cb with shared_refs := cb.shared_refs + 1 - 1 } : ControlBlockBase) = cb := by
    have : cb.shared_refs + 1 - 1 = cb.shared_refs := by ring
    rw [this]
  rw [hcb']
  exact updateFn_eq_of_lookup h.blocks b (some cb) hcb

/-- Incrementing the weak counter and then running one WeakPtr destructor
on the same live block restores the heap exactly. -/
theorem incWeak_wdtor_cancel (h : Heap) (w : WeakPtr) (b : Nat)
    (cb : ControlBlockBase) (hb : w.block_ = some b) (hcb : h.blocks b = some cb)
    (hW : 1 ≤ cb.weak_refs) (hS : 0 ≤ cb.shared_refs) :
    WeakPtr.dtor (h.incWeak (some b)) w = h := by
  have h1 : h.incWeak (some b) =
      { h with blocks := (updateFn h.blocks b
          (some { cb with weak_refs := cb.weak_refs + 1 })) } := by
    simp [Heap.incWeak, hcb]
  have hsum : (cb.shared_refs + (cb.weak_refs + 1 - 1) == 0) = false := by
    simp
    omega
  unfold WeakPtr.dtor
  rw [h1]
  simp only [hb, updateFn_self, hsum, Bool.false_eq_true, if_false]
  refine Heap_eq _ _ ?_ rfl rfl
  rw [updateFn_updateFn_self]
  have hcb' : ({ cb with weak_refs := cb.weak_refs + 1 - 1 } : ControlBlockBase) = cb := by
    have : cb.weak_refs + 1 - 1 = cb.weak_refs := by ring
    rw [this]
  rw [hcb']
  exact updateFn_eq_of_lookup h.blocks b (some cb) hcb

theorem UseCount_congr (hp : Heap) (s1 s2 : SharedPtr)
    (hss : s1.block_ = s2.block_) :
    SharedPtr.UseCount hp s1 = SharedPtr.UseCount hp s2 := by
  unfold SharedPtr.UseCount
  rw [hss]

/-- Claim C6: the aliasing constructor `SharedPtr<T> bPtr(d, rawPtr)` on a
SharedPtr `d` with a live block yields a handle observing exactly `rawPtr`
while sharing the block of `d`; immediately after construction both handles
report the same UseCount, namely the old strong count plus one.  Destroying
`d` first restores the heap exactly (in particular no IfNoShared call, no
object release and no block deallocation happen), and the aliasing handle
still reports the original positive strong count afterwards. -/
theorem claim_C6 (h : Heap) (d : SharedPtr) (p : Option RawPtr) (b : Nat)
    (cb : ControlBlockBase) (hb : d.block_ = some b) (hcb : h.blocks b = some cb)
    (hS : 1 ≤ cb.shared_refs) (hW : 0 ≤ cb.weak_refs) :
    (SharedPtr.aliasCtor h d p).1.Get = p ∧
    (SharedPtr.aliasCtor h d p).1.block_ = d.block_ ∧
    SharedPtr.UseCount (SharedPtr.aliasCtor h d p).2 (SharedPtr.aliasCtor h d p).1 =
      SharedPtr.UseCount (SharedPtr.aliasCtor h d p).2 d ∧
    SharedPtr.UseCount (SharedPtr.aliasCtor h d p).2 d = cb.shared_refs + 1 ∧
    SharedPtr.dtor (SharedPtr.aliasCtor h d p).2 d = h ∧
    SharedPtr.UseCount (SharedPtr.dtor (SharedPtr.aliasCtor h d p).2 d)
      (SharedPtr.aliasCtor h d p).1 = cb.shared_refs := by
  have hret := incShared_dtor_cancel h d b cb hb hcb hS hW
  unfold SharedPtr.aliasCtor SharedPtr.Get
  rw [hb]
  refine ⟨rfl, rfl, ?_, ?_, hret, ?_⟩
  · exact UseCount_congr _ ⟨p, some b⟩ d (by simp [hb])
  · simp [SharedPtr.UseCount, hb, incShared_blocks_self h b cb hcb]
  · rw [hret]
    simp [SharedPtr.UseCount, hcb]

theorem claim_C6_witness :
    (SharedPtr.aliasCtor demoShared.2 demoShared.1 (some (RawPtr.obj 9))).1.Get =
      some (RawPtr.obj 9) ∧
    (SharedPtr.aliasCtor demoShared.2 demoShared.1 (some (RawPtr.obj 9))).1.block_ =
      demoShared.1.block_ ∧
    SharedPtr.UseCount (SharedPtr.aliasCtor demoShared.2 demoShared.1 (some (RawPtr.obj 9))).2
        (SharedPtr.aliasCtor demoShared.2 demoShared.1 (some (RawPtr.obj 9))).1 =
      SharedPtr.UseCount (SharedPtr.aliasCtor demoShared.2 demoShared.1 (some (RawPtr.obj 9))).2
        demoShared.1 ∧
    SharedPtr.UseCount (SharedPtr.aliasCtor demoShared.2 demoShared.1 (some (RawPtr.obj 9))).2
        demoShared.1 =
      (⟨1, 0, ControlBlockVariant.ptrBlock (some (RawPtr.obj 7))⟩ : ControlBlockBase).shared_refs + 1 ∧
    SharedPtr.dtor (SharedPtr.aliasCtor demoShared.2 demoShared.1 (some (RawPtr.obj 9))).2
        demoShared.1 = demoShared.2 ∧
    SharedPtr.UseCount
        (SharedPtr.dtor (SharedPtr.aliasCtor demoShared.2 demoShared.1 (some (RawPtr.obj 9))).2
          demoShared.1)
        (SharedPtr.aliasCtor demoShared.2 demoShared.1 (some (RawPtr.obj 9))).1 =
      (⟨1, 0, ControlBlockVariant.ptrBlock (some (RawPtr.obj 7))⟩ : ControlBlockBase).shared_refs :=
  claim_C6 demoShared.2 demoShared.1 (some (RawPtr.obj 9)) 0
    ⟨1, 0, ControlBlockVariant.ptrBlock (some (RawPtr.obj 7))⟩
    (by decide) (by decide) (by decide) (by decide)

/-- Claim C7 counterexample: when the control-block allocation inside the
raw-pointer constructor `SharedPtr(Y* ptr)` fails, the error propagates but
the raw object handed to the constructor is orphaned: the heap comes back
exactly as the empty heap — no block owns the object, no deleteObject event
was emitted, so nothing ever frees it (the constructor performs no cleanup,
unlike std::shared_ptr, which calls `delete ptr` in this situation).  This
refutes the part of the claim asserting that no resource handed to the
constructor is orphaned. -/
theorem claim_C7_counterexample :
    (SharedPtr.fromRawAlloc false Heap.empty (some (RawPtr.obj 0))).1 =
      Except.error AllocError.badAlloc ∧
    (SharedPtr.fromRawAlloc false Heap.empty (some (RawPtr.obj 0))).2 = Heap.empty ∧
    Event.deleteObject (RawPtr.obj 0) ∉
      (SharedPtr.fromRawAlloc false Heap.empty (some (RawPtr.obj 0))).2.events ∧
    (SharedPtr.fromRawAlloc false Heap.empty (some (RawPtr.obj 0))).2.blocks 0 = none := by
  refine ⟨rfl, rfl, by decide, rfl⟩

/-- Claim C7 (amended): every operation other than the weak-to-strong
promotion is non-failing except for allocation failure; when the
control-block allocation fails in the raw-pointer constructor or in
MakeShared, the error propagates and the heap is returned completely
untouched — no partial state, no counter mutation, no allocation and no
event — but the raw pointer handed to the raw-pointer constructor is not
freed on that failure path (no cleanup is performed), so that resource is
leaked by the caller-constructor pair.  When allocation succeeds both
constructors behave as their non-failing versions. -/
theorem claim_C7_amended (h : Heap) (p : Option RawPtr) :
    SharedPtr.fromRawAlloc false h p = (Except.error AllocError.badAlloc, h) ∧
    MakeSharedAlloc false h = (Except.error AllocError.badAlloc, h) ∧
    SharedPtr.fromRawAlloc true h p =
      (Except.ok (SharedPtr.fromRaw h p).1, (SharedPtr.fromRaw h p).2) ∧
    MakeSharedAlloc true h = (Except.ok (MakeShared h).1, (MakeShared h).2) := by
  refine ⟨rfl, rfl, rfl, rfl⟩

/-- Claim C8: self-copy-assignment and self-move-assignment on a SharedPtr
or a WeakPtr (implemented as construct-temporary-then-swap) return the
handle unchanged and the heap unchanged: every control-block counter keeps
its value and the handle still refers to the same observed pointer and
block.  For handles referencing a live block the temporary first bumps and
the temporary destruction then restores the respective counter; for empty
handles nothing happens at all.  Self-move-assignment is an exact no-op for
any handle. -/
theorem claim_C8 (h : Heap) (s : SharedPtr) (w : WeakPtr) (b bw : Nat)
    (cb cbw : ControlBlockBase) :
    SharedPtr.selfAssignMove h s = (s, h) ∧
    WeakPtr.selfAssignMove h w = (w, h) ∧
    (s.block_ = none → SharedPtr.assignCopy h s s = (s, h)) ∧
    (w.block_ = none → WeakPtr.assignCopy h w w = (w, h)) ∧
    (s.block_ = some b → h.blocks b = some cb → 1 ≤ cb.shared_refs →
      0 ≤ cb.weak_refs → SharedPtr.assignCopy h s s = (s, h)) ∧
    (w.block_ = some bw → h.blocks bw = some cbw → 1 ≤ cbw.weak_refs →
      0 ≤ cbw.shared_refs → WeakPtr.assignCopy h w w = (w, h)) := by
  refine ⟨rfl, rfl, ?_, ?_, ?_, ?_⟩
  · intro hn
    unfold SharedPtr.assignCopy SharedPtr.copy SharedPtr.Swap
    dsimp only
    simp only [Prod.mk.injEq]
    exact ⟨trivial, by rw [hn, incShared_none_eq, dtor_block_none h s hn]⟩
  · intro hn
    unfold WeakPtr.assignCopy WeakPtr.copy WeakPtr.Swap
    dsimp only
    simp only [Prod.mk.injEq]
    exact ⟨trivial, by rw [hn, incWeak_none_eq, wdtor_block_none h w hn]⟩
  · intro hb hcb hS hW
    unfold SharedPtr.assignCopy SharedPtr.copy SharedPtr.Swap
    dsimp only
    simp only [Prod.mk.injEq]
    exact ⟨trivial, by rw [hb]; exact incShared_dtor_cancel h s b cb hb hcb hS hW⟩
  · intro hb hcb hW hS
    unfold WeakPtr.assignCopy WeakPtr.copy WeakPtr.Swap
    dsimp only
    simp only [Prod.mk.injEq]
    exact ⟨trivial, by rw [hb]; exact incWeak_wdtor_cancel h w bw cbw hb hcb hW hS⟩

theorem claim_C8_witness :
    SharedPtr.selfAssignMove demoShared.2 demoShared.1 =
      (demoShared.1, demoShared.2) ∧
    WeakPtr.selfAssignMove demoWeak.2 demoWeak.1 = (demoWeak.1, demoWeak.2) ∧
    SharedPtr.assignCopy Heap.empty SharedPtr.null SharedPtr.null =
      (SharedPtr.null, Heap.empty) ∧
    WeakPtr.assignCopy Heap.empty WeakPtr.null WeakPtr.null =
      (WeakPtr.null, Heap.empty) ∧
    SharedPtr.assignCopy demoWeak.2 demoShared.1 demoShared.1 =
      (demoShared.1, demoWeak.2) ∧
    WeakPtr.assignCopy demoWeak.2 demoWeak.1 demoWeak.1 =
      (demoWeak.1, demoWeak.2) :=
  ⟨(claim_C8 demoShared.2 demoShared.1 WeakPtr.null 0 0 demoCB demoCB).1,
   (claim_C8 demoWeak.2 SharedPtr.null demoWeak.1 0 0 demoCB demoCB).2.1,
   (claim_C8 Heap.empty SharedPtr.null WeakPtr.null 0 0 demoCB demoCB).2.2.1 rfl,
   (claim_C8 Heap.empty SharedPtr.null WeakPtr.null 0 0 demoCB demoCB).2.2.2.1 rfl,
   (claim_C8 demoWeak.2 demoShared.1 demoWeak.1 0 0 demoCB demoCB).2.2.2.2.1
     (by decide) (by decide) (by decide) (by decide),
   (claim_C8 demoWeak.2 demoShared.1 demoWeak.1 0 0 demoCB demoCB).2.2.2.2.2
     (by decide) (by decide) (by decide) (by decide)⟩

/-- Claim C9: every operation on an empty handle (null block pointer) is a
total no-op on the shared state: copying or moving an empty SharedPtr or
WeakPtr yields an empty handle and touches no counter, destroying an empty
handle frees nothing and leaves the heap untouched, UseCount reports 0, and
constructing a WeakPtr from an empty SharedPtr yields an empty WeakPtr that
is already Expired, with no weak-count increment anywhere. -/
theorem claim_C9 (h : Heap) :
    SharedPtr.copy h SharedPtr.null = (SharedPtr.null, h) ∧
    SharedPtr.moveCtor SharedPtr.null = (SharedPtr.null, SharedPtr.null) ∧
    SharedPtr.dtor h SharedPtr.null = h ∧
    SharedPtr.UseCount h SharedPtr.null = 0 ∧
    WeakPtr.copy h WeakPtr.null = (WeakPtr.null, h) ∧
    WeakPtr.moveCtor WeakPtr.null = (WeakPtr.null, WeakPtr.null) ∧
    WeakPtr.dtor h WeakPtr.null = h ∧
    WeakPtr.UseCount h WeakPtr.null = 0 ∧
    WeakPtr.fromShared h SharedPtr.null = (WeakPtr.null, h) ∧
    WeakPtr.Expired h (WeakPtr.fromShared h SharedPtr.null).1 = true :=
  ⟨rfl, rfl, rfl, rfl, rfl, rfl, rfl, rfl, rfl, rfl⟩

/-- Claim C10: the release operation of the pointer-owning control block is
idempotent.  The first IfNoShared call on a ControlBlockPtr holding an
owned pointer deletes that pointer and nulls the stored pointer field; any
further call finds the null field, performs no deletion (deleting a null
pointer is a no-op) and leaves the block state unchanged — stronger than
the stated at-most-once calling contract. -/
theorem claim_C10 (sh wk : Int) (a : RawPtr) (b : Nat) :
    (ControlBlockBase.IfNoShared b
        ⟨sh, wk, ControlBlockVariant.ptrBlock (some a)⟩).2 =
      [Event.ifNoShared b, Event.deleteObject a] ∧
    (ControlBlockBase.IfNoShared b
        ⟨sh, wk, ControlBlockVariant.ptrBlock (some a)⟩).1 =
      ⟨sh, wk, ControlBlockVariant.ptrBlock none⟩ ∧
    (ControlBlockBase.IfNoShared b
        (ControlBlockBase.IfNoShared b
          ⟨sh, wk, ControlBlockVariant.ptrBlock (some a)⟩).1).1 =
      (ControlBlockBase.IfNoShared b
        ⟨sh, wk, ControlBlockVariant.ptrBlock (some a)⟩).1 ∧
    (ControlBlockBase.IfNoShared b
        (ControlBlockBase.IfNoShared b
          ⟨sh, wk, ControlBlockVariant.ptrBlock (some a)⟩).1).2 =
      [Event.ifNoShared b] :=
  ⟨rfl, rfl, rfl, rfl⟩
